import Mathlib

/-!
Verification of the commonplace document server against its specification.

The definitions below are shallow embeddings of the Rust sources:
  - `src/ws/protocol.rs`  (wire codec)
  - `src/ws/room.rs`      (room fan-out)
  - `src/fs/reconciler.rs` (filesystem reconciler)
  - `src/orchestrator/config.rs` (supervisor startup order)
  - `src/document.rs`     (content types, document store)
  - `src/node/connection_node.rs` (connection nodes)

Bytes are modelled as `Nat` (u8 values are < 256; hypotheses state this where
it matters), u64 arithmetic is `Nat` with explicit `% 2 ^ 64` where Rust would
wrap, Rust `String` values on the wire are modelled by their UTF-8 byte lists,
and fallible code returns `Except`.
-/

/-- Decidable equality for `Except`, so concrete runs of the embedded
decoders can be checked by `decide`. -/
instance {e a : Type} [DecidableEq e] [DecidableEq a] : DecidableEq (Except e a) := fun x y =>
  match x, y with
  | .ok v, .ok w => if h : v = w then isTrue (by rw [h]) else isFalse (by simp [h])
  | .error v, .error w => if h : v = w then isTrue (by rw [h]) else isFalse (by simp [h])
  | .ok _, .error _ => isFalse (by simp)
  | .error _, .ok _ => isFalse (by simp)

/-! ## Wire codec (src/ws/protocol.rs) -/

/-- Protocol errors, from `enum ProtocolError` in src/ws/protocol.rs.
`ioError` stands for the `Io(#[from] io::Error)` variant. -/
inductive ProtocolError where
  | unknownMessageType (b : Nat)
  | unknownSyncType (b : Nat)
  | unexpectedEof
  | invalidUtf8
  | ioError (msg : String)
  deriving DecidableEq, Repr

/-- Top-level message type (first byte of a binary message). -/
inductive MessageType where
  | sync
  | awareness
  | commitMeta
  | blueEvent
  | redEvent
  deriving DecidableEq, Repr

/-- `TryFrom<u8> for MessageType`. -/
def messageTypeFromByte (b : Nat) : Except ProtocolError MessageType :=
  if b = 0 then .ok .sync
  else if b = 1 then .ok .awareness
  else if b = 3 then .ok .commitMeta
  else if b = 4 then .ok .blueEvent
  else if b = 5 then .ok .redEvent
  else .error (.unknownMessageType b)

/-- Sync message subtypes (second byte when the type is Sync). -/
inductive SyncMessageType where
  | syncStep1
  | syncStep2
  | update
  deriving DecidableEq, Repr

/-- `TryFrom<u8> for SyncMessageType`. -/
def syncTypeFromByte (b : Nat) : Except ProtocolError SyncMessageType :=
  if b = 0 then .ok .syncStep1
  else if b = 1 then .ok .syncStep2
  else if b = 2 then .ok .update
  else .error (.unknownSyncType b)

/-- Decoded WebSocket message (`enum WsMessage`).  String fields are modelled
as their UTF-8 byte lists. -/
inductive WsMessage where
  | syncStep1 (stateVector : List Nat)
  | syncStep2 (update : List Nat)
  | update (update : List Nat)
  | awareness (data : List Nat)
  | commitMeta (parentCid : List Nat) (timestamp : Nat) (author : List Nat)
      (message : Option (List Nat))
  | blueEvent (docId : List Nat) (commitId : List Nat) (timestamp : Nat)
  | redEvent (eventType : List Nat) (payload : List Nat)
  deriving DecidableEq, Repr

/-- `encode_var_uint`: 7-bit little-endian groups with continuation bit.
The Rust loop `byte = v & 0x7F; v >>= 7; if v != 0 byte |= 0x80`. -/
def encodeVarUint (v : Nat) : List Nat :=
  let byte := v &&& 0x7F
  let v' := v >>> 7
  if v' = 0 then [byte] else (byte ||| 0x80) :: encodeVarUint v'
termination_by v
decreasing_by
  simp only [Nat.shiftRight_eq_div_pow, Nat.reducePow] at *
  omega

/-- The loop body of `decode_var_uint`.  `result` and `shift` are the mutable
locals; the u64 shift `((byte & 0x7F) as u64) << shift` discards bits above
63, hence the `% 2 ^ 64`.  Returns the decoded value and the remaining
input (the advanced `&mut &[u8]`). -/
def decodeVarUintLoop : List Nat → Nat → Nat → Except ProtocolError (Nat × List Nat)
  | [], _, _ => .error .unexpectedEof
  | byte :: rest, result, shift =>
    let result := result ||| ((byte &&& 0x7F) <<< shift) % 2 ^ 64
    if byte &&& 0x80 = 0 then
      .ok (result, rest)
    else
      let shift := shift + 7
      if shift > 63 then
        .ok (result, rest)
      else
        decodeVarUintLoop rest result shift

/-- `decode_var_uint`. -/
def decodeVarUint (data : List Nat) : Except ProtocolError (Nat × List Nat) :=
  decodeVarUintLoop data 0 0

/-- `encode_var_bytes`: varuint length prefix followed by the raw bytes. -/
def encodeVarBytes (bytes : List Nat) : List Nat :=
  encodeVarUint bytes.length ++ bytes

/-- `decode_var_bytes`: decode the length, check it against the remaining
input, and split it off. -/
def decodeVarBytes (data : List Nat) : Except ProtocolError (List Nat × List Nat) := do
  let (len, rest) ← decodeVarUint data
  if rest.length < len then
    .error .unexpectedEof
  else
    .ok (rest.take len, rest.drop len)

/-- UTF-8 validity of a byte list: the success condition of Rust
`String::from_utf8` (well-formed sequences, no surrogates, no overlongs,
code points ≤ U+10FFFF). -/
def validUtf8 : List Nat → Bool
  | [] => true
  | b :: rest =>
    if b < 0x80 then validUtf8 rest
    else if b < 0xC2 then false
    else if b < 0xE0 then
      match rest with
      | c1 :: r => decide (0x80 ≤ c1 ∧ c1 < 0xC0) && validUtf8 r
      | [] => false
    else if b < 0xF0 then
      match rest with
      | c1 :: c2 :: r =>
        (if b = 0xE0 then decide (0xA0 ≤ c1 ∧ c1 < 0xC0)
         else if b = 0xED then decide (0x80 ≤ c1 ∧ c1 < 0xA0)
         else decide (0x80 ≤ c1 ∧ c1 < 0xC0)) &&
        decide (0x80 ≤ c2 ∧ c2 < 0xC0) && validUtf8 r
      | _ => false
    else if b < 0xF5 then
      match rest with
      | c1 :: c2 :: c3 :: r =>
        (if b = 0xF0 then decide (0x90 ≤ c1 ∧ c1 < 0xC0)
         else if b = 0xF4 then decide (0x80 ≤ c1 ∧ c1 < 0x90)
         else decide (0x80 ≤ c1 ∧ c1 < 0xC0)) &&
        decide (0x80 ≤ c2 ∧ c2 < 0xC0) && decide (0x80 ≤ c3 ∧ c3 < 0xC0) &&
        validUtf8 r
      | _ => false
    else false

/-- `encode_var_string`: the string's UTF-8 bytes, length-prefixed. -/
def encodeVarString (s : List Nat) : List Nat :=
  encodeVarBytes s

/-- `decode_var_string`: `decode_var_bytes` then `String::from_utf8`,
failing with `InvalidUtf8` on ill-formed bytes. -/
def decodeVarString (data : List Nat) : Except ProtocolError (List Nat × List Nat) := do
  let (bytes, rest) ← decodeVarBytes data
  if validUtf8 bytes then .ok (bytes, rest) else .error .invalidUtf8

/-- `encode_sync_step1`. -/
def encodeSyncStep1 (stateVector : List Nat) : List Nat :=
  0 :: 0 :: encodeVarBytes stateVector

/-- `encode_sync_step2`. -/
def encodeSyncStep2 (update : List Nat) : List Nat :=
  0 :: 1 :: encodeVarBytes update

/-- `encode_update`. -/
def encodeUpdate (update : List Nat) : List Nat :=
  0 :: 2 :: encodeVarBytes update

/-- `encode_awareness`: the type byte followed by the raw data. -/
def encodeAwareness (data : List Nat) : List Nat :=
  1 :: data

/-- `encode_blue_event`. -/
def encodeBlueEvent (docId commitId : List Nat) (timestamp : Nat) : List Nat :=
  4 :: (encodeVarString docId ++ encodeVarString commitId ++ encodeVarUint timestamp)

/-- `encode_red_event`. -/
def encodeRedEvent (eventType payload : List Nat) : List Nat :=
  5 :: (encodeVarString eventType ++ encodeVarString payload)

/-- `decode_message`. -/
def decodeMessage (data : List Nat) : Except ProtocolError WsMessage :=
  match data with
  | [] => .error .unexpectedEof
  | b :: rest =>
    match messageTypeFromByte b with
    | .error e => .error e
    | .ok .sync =>
      match rest with
      | [] => .error .unexpectedEof
      | sb :: rest2 =>
        match syncTypeFromByte sb with
        | .error e => .error e
        | .ok st => do
          let (payload, _) ← decodeVarBytes rest2
          match st with
          | .syncStep1 => .ok (.syncStep1 payload)
          | .syncStep2 => .ok (.syncStep2 payload)
          | .update => .ok (.update payload)
    | .ok .awareness => .ok (.awareness rest)
    | .ok .commitMeta => do
      let (parentCid, r1) ← decodeVarString rest
      let (timestamp, r2) ← decodeVarUint r1
      let (author, r3) ← decodeVarString r2
      if r3.isEmpty then
        .ok (.commitMeta parentCid timestamp author none)
      else do
        let (message, _) ← decodeVarString r3
        .ok (.commitMeta parentCid timestamp author (some message))
    | .ok .blueEvent => do
      let (docId, r1) ← decodeVarString rest
      let (commitId, r2) ← decodeVarString r1
      let (timestamp, _) ← decodeVarUint r2
      .ok (.blueEvent docId commitId timestamp)
    | .ok .redEvent => do
      let (eventType, r1) ← decodeVarString rest
      let (payload, _) ← decodeVarString r1
      .ok (.redEvent eventType payload)

example : encodeVarUint 300 = [0xAC, 0x02] := by
  simp [encodeVarUint]
  decide
example : decodeVarUint (encodeVarUint 300) = .ok (300, []) := by
  simp [encodeVarUint, decodeVarUint]
  decide
example : decodeMessage (encodeUpdate [10, 20, 30]) = .ok (.update [10, 20, 30]) := by
  simp [encodeUpdate, encodeVarBytes, encodeVarUint]
  decide
example : decodeMessage (encodeBlueEvent [100] [101] 7) = .ok (.blueEvent [100] [101] 7) := by
  simp [encodeBlueEvent, encodeVarString, encodeVarBytes, encodeVarUint]
  decide

/-! ## Wire codec lemmas -/

theorem and_127_eq_mod (n : Nat) : n &&& 127 = n % 128 := by
  have h := Nat.and_pow_two_sub_one_eq_mod n 7
  norm_num at h
  exact h

theorem and_128_of_lt {n : Nat} (h : n < 128) : n &&& 128 = 0 := by
  have hp : (2 : Nat) ^ 7 = 128 := by norm_num
  have h2 := Nat.and_two_pow n 7
  rw [Nat.testBit_lt_two_pow (by rw [hp]; exact h)] at h2
  rw [hp] at h2
  simpa using h2

theorem and_128_of_ge {n : Nat} (h1 : 128 ≤ n) (h2 : n < 256) : n &&& 128 = 128 := by
  have hp : (2 : Nat) ^ 7 = 128 := by norm_num
  have h3 := Nat.and_two_pow n 7
  have hb : n.testBit 7 = true := by
    rw [Nat.testBit_to_div_mod, hp]
    have hd : n / 128 = 1 := by omega
    simp [hd]
  rw [hb, hp] at h3
  simpa using h3

theorem lor_mul_pow {a b s : Nat} (h : a < 2 ^ s) : a ||| b * 2 ^ s = a + b * 2 ^ s := by
  have h2 := Nat.mul_add_lt_is_or h b
  rw [Nat.mul_comm] at h2
  rw [Nat.or_comm, ← h2]
  omega

theorem shiftRight7 (v : Nat) : v >>> 7 = v / 128 := by
  rw [Nat.shiftRight_eq_div_pow]

theorem encodeVarUint_lt {v : Nat} (h : v < 128) : encodeVarUint v = [v &&& 127] := by
  rw [encodeVarUint]
  simp [shiftRight7, Nat.div_eq_of_lt h]

theorem encodeVarUint_ge {v : Nat} (h : 128 ≤ v) :
    encodeVarUint v = ((v &&& 127) ||| 128) :: encodeVarUint (v >>> 7) := by
  rw [encodeVarUint]
  have hne : v >>> 7 ≠ 0 := by
    rw [shiftRight7]
    have : 1 ≤ v / 128 := (Nat.one_le_div_iff (by norm_num)).mpr h
    omega
  simp [hne]

theorem mul_pow_lt_64 {v s : Nat} (hs : s ≤ 63) (hv : v < 2 ^ (64 - s)) :
    v * 2 ^ s < 2 ^ 64 := by
  have hpos : 0 < (2 : Nat) ^ s := Nat.pos_pow_of_pos s (by norm_num)
  have h1 : v * 2 ^ s < 2 ^ (64 - s) * 2 ^ s := (Nat.mul_lt_mul_right hpos).mpr hv
  have h2 : (2 : Nat) ^ (64 - s) * 2 ^ s = 2 ^ 64 := by
    rw [← pow_add]
    congr 1
    omega
  omega

theorem decodeLoop_encode (v : Nat) :
    ∀ acc s rest, s ≤ 63 → v < 2 ^ (64 - s) → acc < 2 ^ s →
      decodeVarUintLoop (encodeVarUint v ++ rest) acc s = .ok (acc + v * 2 ^ s, rest) := by
  induction v using Nat.strong_induction_on with
  | _ v ih =>
    intro acc s rest hs hv hacc
    by_cases hv128 : v < 128
    · rw [encodeVarUint_lt hv128]
      have hmod : v &&& 127 = v := by
        rw [and_127_eq_mod, Nat.mod_eq_of_lt hv128]
      have hcont : v &&& 128 = 0 := and_128_of_lt hv128
      have hlt64 : v * 2 ^ s < 2 ^ 64 := mul_pow_lt_64 hs hv
      simp only [List.cons_append, List.nil_append, decodeVarUintLoop, hmod, hcont,
        if_true, Nat.shiftLeft_eq, Nat.mod_eq_of_lt hlt64, lor_mul_pow hacc]
      simp
    · push_neg at hv128
      rw [encodeVarUint_ge hv128]
      have hb127 : ((v &&& 127) ||| 128) &&& 127 = v % 128 := by
        rw [and_127_eq_mod, and_127_eq_mod]
        have h1 : v % 128 ||| 128 = v % 128 + 128 := by
          have := lor_mul_pow (a := v % 128) (b := 1) (s := 7)
            (by have := Nat.mod_lt v (y := 128) (by norm_num); norm_num; omega)
          norm_num at this
          exact this
        rw [h1, Nat.add_mod_right, Nat.mod_mod_of_dvd _ (by norm_num)]
      have hbor : (v &&& 127) ||| 128 = v % 128 + 128 := by
        rw [and_127_eq_mod]
        have := lor_mul_pow (a := v % 128) (b := 1) (s := 7)
          (by have := Nat.mod_lt v (y := 128) (by norm_num); norm_num; omega)
        norm_num at this
        exact this
      have hcont : ((v &&& 127) ||| 128) &&& 128 = 128 := by
        rw [hbor]
        exact and_128_of_ge (by omega) (by have := Nat.mod_lt v (y := 128) (by norm_num); omega)
      have hs57 : s < 57 := by
        by_contra hcon
        push_neg at hcon
        have h64s : 64 - s ≤ 7 := by omega
        have : (2 : Nat) ^ (64 - s) ≤ 2 ^ 7 := Nat.pow_le_pow_right (by norm_num) h64s
        norm_num at this
        omega
      have hmodlt : v % 128 < 128 := Nat.mod_lt v (by norm_num)
      have hmul : v % 128 * 2 ^ s < 2 ^ 64 :=
        mul_pow_lt_64 hs (by omega)
      have hacc' : acc + v % 128 * 2 ^ s < 2 ^ (s + 7) := by
        have h1 : v % 128 * 2 ^ s ≤ 127 * 2 ^ s := Nat.mul_le_mul_right _ (by omega)
        have h2 : (2 : Nat) ^ (s + 7) = 2 ^ s * 128 := by
          rw [pow_add]
          norm_num
        omega
      have hv' : v >>> 7 < 2 ^ (64 - (s + 7)) := by
        rw [shiftRight7]
        have h1 : 64 - (s + 7) = 64 - s - 7 := by omega
        rw [h1]
        have h2 : v < 2 ^ (64 - s - 7) * 128 := by
          have h3 : (2 : Nat) ^ (64 - s - 7) * 128 = 2 ^ (64 - s) := by
            have : 64 - s = (64 - s - 7) + 7 := by omega
            rw [this, pow_add]
            norm_num
          omega
        exact Nat.div_lt_of_lt_mul (by omega)
      have hrec := ih (v >>> 7) (by rw [shiftRight7]; omega) (acc + v % 128 * 2 ^ s)
        (s + 7) rest (by omega) hv' hacc'
      simp only [List.cons_append, List.append_eq, decodeVarUintLoop, hb127, hcont,
        Nat.shiftLeft_eq, Nat.mod_eq_of_lt hmul, lor_mul_pow hacc]
      have hif : ¬(128 = 0) := by norm_num
      rw [if_neg hif]
      have hif2 : ¬(s + 7 > 63) := by omega
      rw [if_neg hif2, hrec]
      have hsplit : v % 128 + 128 * (v / 128) = v := Nat.mod_add_div v 128
      have hpow : (2 : Nat) ^ (s + 7) = 2 ^ s * 128 := by
        rw [pow_add]
        norm_num
      rw [shiftRight7, hpow]
      congr 2
      calc acc + v % 128 * 2 ^ s + v / 128 * (2 ^ s * 128)
        = acc + (v % 128 + 128 * (v / 128)) * 2 ^ s := by ring
      _ = acc + v * 2 ^ s := by rw [hsplit]

theorem exceptBind_ok {e a b : Type} (x : a) (f : a → Except e b) :
    (Except.ok x : Except e a) >>= f = f x := rfl

theorem exceptBind_error {e a b : Type} (err : e) (f : a → Except e b) :
    (Except.error err : Except e a) >>= f = .error err := rfl

theorem decodeVarUint_encode_append (v : Nat) (hv : v < 2 ^ 64) (rest : List Nat) :
    decodeVarUint (encodeVarUint v ++ rest) = .ok (v, rest) := by
  have h := decodeLoop_encode v 0 0 rest (by norm_num) (by simpa using hv) (by norm_num)
  simpa [decodeVarUint] using h

theorem decodeVarUint_encode (v : Nat) (hv : v < 2 ^ 64) :
    decodeVarUint (encodeVarUint v) = .ok (v, []) := by
  have h := decodeVarUint_encode_append v hv []
  simpa using h

theorem decodeVarBytes_encode_append (bs : List Nat) (h : bs.length < 2 ^ 64)
    (rest : List Nat) :
    decodeVarBytes (encodeVarBytes bs ++ rest) = .ok (bs, rest) := by
  have h1 : encodeVarBytes bs ++ rest = encodeVarUint bs.length ++ (bs ++ rest) := by
    simp [encodeVarBytes]
  rw [decodeVarBytes, h1, decodeVarUint_encode_append bs.length h, exceptBind_ok]
  have h2 : ¬((bs ++ rest).length < bs.length) := by
    simp [List.length_append]
  dsimp only
  rw [if_neg h2, List.take_left, List.drop_left]

theorem decodeVarBytes_encode (bs : List Nat) (h : bs.length < 2 ^ 64) :
    decodeVarBytes (encodeVarBytes bs) = .ok (bs, []) := by
  have h1 := decodeVarBytes_encode_append bs h []
  simpa using h1

theorem decodeVarString_encode_append (s : List Nat) (h : s.length < 2 ^ 64)
    (hu : validUtf8 s = true) (rest : List Nat) :
    decodeVarString (encodeVarString s ++ rest) = .ok (s, rest) := by
  rw [decodeVarString, encodeVarString, decodeVarBytes_encode_append s h rest,
    exceptBind_ok]
  simp [hu]

theorem decodeVarString_encode (s : List Nat) (h : s.length < 2 ^ 64)
    (hu : validUtf8 s = true) :
    decodeVarString (encodeVarString s) = .ok (s, []) := by
  have h1 := decodeVarString_encode_append s h hu []
  simpa using h1

theorem decodeMessage_encodeSyncStep1 (sv : List Nat) (h : sv.length < 2 ^ 64) :
    decodeMessage (encodeSyncStep1 sv) = .ok (.syncStep1 sv) := by
  rw [encodeSyncStep1]
  simp [decodeMessage, messageTypeFromByte, syncTypeFromByte,
    decodeVarBytes_encode sv h, exceptBind_ok]

theorem decodeMessage_encodeSyncStep2 (u : List Nat) (h : u.length < 2 ^ 64) :
    decodeMessage (encodeSyncStep2 u) = .ok (.syncStep2 u) := by
  rw [encodeSyncStep2]
  simp [decodeMessage, messageTypeFromByte, syncTypeFromByte,
    decodeVarBytes_encode u h, exceptBind_ok]

theorem decodeMessage_encodeUpdate (u : List Nat) (h : u.length < 2 ^ 64) :
    decodeMessage (encodeUpdate u) = .ok (.update u) := by
  rw [encodeUpdate]
  simp [decodeMessage, messageTypeFromByte, syncTypeFromByte,
    decodeVarBytes_encode u h, exceptBind_ok]

theorem decodeMessage_encodeAwareness (d : List Nat) :
    decodeMessage (encodeAwareness d) = .ok (.awareness d) := by
  rw [encodeAwareness]
  simp [decodeMessage, messageTypeFromByte]

theorem decodeMessage_encodeBlueEvent (d c : List Nat) (ts : Nat)
    (hd : d.length < 2 ^ 64) (hc : c.length < 2 ^ 64) (hts : ts < 2 ^ 64)
    (hud : validUtf8 d = true) (huc : validUtf8 c = true) :
    decodeMessage (encodeBlueEvent d c ts) = .ok (.blueEvent d c ts) := by
  rw [encodeBlueEvent]
  have h1 : encodeVarString d ++ encodeVarString c ++ encodeVarUint ts =
      encodeVarString d ++ (encodeVarString c ++ encodeVarUint ts) := by
    simp
  simp only [decodeMessage, messageTypeFromByte, h1]
  norm_num
  rw [decodeVarString_encode_append d hd hud, exceptBind_ok,
    decodeVarString_encode_append c hc huc, exceptBind_ok,
    decodeVarUint_encode ts hts, exceptBind_ok]

theorem decodeMessage_encodeRedEvent (et p : List Nat)
    (het : et.length < 2 ^ 64) (hp : p.length < 2 ^ 64)
    (huet : validUtf8 et = true) (hup : validUtf8 p = true) :
    decodeMessage (encodeRedEvent et p) = .ok (.redEvent et p) := by
  rw [encodeRedEvent]
  simp only [decodeMessage, messageTypeFromByte]
  norm_num
  rw [decodeVarString_encode_append et het huet, exceptBind_ok,
    decodeVarString_encode p hp hup, exceptBind_ok]

/-- C1: Wire codec round-trip.  Every u64 encodes and decodes back to itself
with the whole buffer consumed, and every legal frame built by one of the
encoders decodes to the matching `WsMessage` variant with equal fields.
Lengths are below `2 ^ 64` (Rust slices) and string fields are valid UTF-8
(Rust `&str`). -/
theorem wire_codec_roundtrip :
    (∀ v : Nat, v < 2 ^ 64 →
      decodeVarUint (encodeVarUint v) = .ok (v, [])) ∧
    (∀ sv : List Nat, sv.length < 2 ^ 64 →
      decodeMessage (encodeSyncStep1 sv) = .ok (.syncStep1 sv)) ∧
    (∀ u : List Nat, u.length < 2 ^ 64 →
      decodeMessage (encodeSyncStep2 u) = .ok (.syncStep2 u)) ∧
    (∀ u : List Nat, u.length < 2 ^ 64 →
      decodeMessage (encodeUpdate u) = .ok (.update u)) ∧
    (∀ d : List Nat, decodeMessage (encodeAwareness d) = .ok (.awareness d)) ∧
    (∀ (d c : List Nat) (ts : Nat), d.length < 2 ^ 64 → c.length < 2 ^ 64 →
      ts < 2 ^ 64 → validUtf8 d = true → validUtf8 c = true →
      decodeMessage (encodeBlueEvent d c ts) = .ok (.blueEvent d c ts)) ∧
    (∀ et p : List Nat, et.length < 2 ^ 64 → p.length < 2 ^ 64 →
      validUtf8 et = true → validUtf8 p = true →
      decodeMessage (encodeRedEvent et p) = .ok (.redEvent et p)) :=
  ⟨decodeVarUint_encode, decodeMessage_encodeSyncStep1, decodeMessage_encodeSyncStep2,
    decodeMessage_encodeUpdate, decodeMessage_encodeAwareness,
    decodeMessage_encodeBlueEvent, decodeMessage_encodeRedEvent⟩

/-- Witness for C1 at concrete frames. -/
theorem wire_codec_roundtrip_witness :
    decodeVarUint (encodeVarUint 16384) = .ok (16384, []) ∧
    decodeMessage (encodeSyncStep1 [1, 2, 3, 4, 5]) = .ok (.syncStep1 [1, 2, 3, 4, 5]) ∧
    decodeMessage (encodeSyncStep2 [9]) = .ok (.syncStep2 [9]) ∧
    decodeMessage (encodeUpdate [10, 20, 30]) = .ok (.update [10, 20, 30]) ∧
    decodeMessage (encodeAwareness [7, 8]) = .ok (.awareness [7, 8]) ∧
    decodeMessage (encodeBlueEvent [100, 45] [99] 1234567890) =
      .ok (.blueEvent [100, 45] [99] 1234567890) ∧
    decodeMessage (encodeRedEvent [101] [102, 103]) = .ok (.redEvent [101] [102, 103]) :=
  ⟨wire_codec_roundtrip.1 16384 (by norm_num),
    wire_codec_roundtrip.2.1 [1, 2, 3, 4, 5] (by norm_num),
    wire_codec_roundtrip.2.2.1 [9] (by norm_num),
    wire_codec_roundtrip.2.2.2.1 [10, 20, 30] (by norm_num),
    wire_codec_roundtrip.2.2.2.2.1 [7, 8],
    wire_codec_roundtrip.2.2.2.2.2.1 [100, 45] [99] 1234567890 (by norm_num)
      (by norm_num) (by norm_num) (by decide) (by decide),
    wire_codec_roundtrip.2.2.2.2.2.2 [101] [102, 103] (by norm_num) (by norm_num)
      (by decide) (by decide)⟩

theorem decodeLoop_contbytes :
    ∀ (k : Nat) (data : List Nat) (acc s : Nat),
      s + 7 * k = 70 → 1 ≤ k → k ≤ data.length →
      (∀ i, i < k → 128 ≤ data.getD i 0 ∧ data.getD i 0 < 256) →
      ∃ r, decodeVarUintLoop data acc s = .ok (r, data.drop k) := by
  intro k
  induction k with
  | zero =>
    intro data acc s h1 h2 h3 h4
    omega
  | succ k ihk =>
    intro data acc s hs hk hlen hbytes
    cases data with
    | nil => simp at hlen
    | cons b rest =>
      have hb := hbytes 0 (by omega)
      simp only [List.getD_cons_zero] at hb
      have hcont : b &&& 128 = 128 := and_128_of_ge hb.1 hb.2
      by_cases hk0 : k = 0
      · subst hk0
        refine ⟨acc ||| ((b &&& 127) <<< s) % 2 ^ 64, ?_⟩
        simp only [decodeVarUintLoop, hcont]
        rw [if_neg (by norm_num : ¬(128 = 0))]
        rw [if_pos (by omega : s + 7 > 63)]
        simp
      · have hk1 : 1 ≤ k := by omega
        obtain ⟨r, hr⟩ := ihk rest (acc ||| ((b &&& 127) <<< s) % 2 ^ 64) (s + 7)
          (by omega) hk1
          (by simp at hlen ⊢; omega)
          (fun i hi => by
            have h := hbytes (i + 1) (by omega)
            simpa only [List.getD_cons_succ] using h)
        refine ⟨r, ?_⟩
        simp only [decodeVarUintLoop, hcont]
        rw [if_neg (by norm_num : ¬(128 = 0))]
        rw [if_neg (by omega : ¬(s + 7 > 63))]
        rw [hr]
        simp

/-- C2: Varuint decoder overflow abort.  On any input whose first ten bytes
all carry the continuation bit, the decode loop stops right after the tenth
byte (the accumulated shift exceeds 63 there): it returns `Ok` with exactly
ten bytes consumed, leaving the rest of the input untouched. -/
theorem decode_var_uint_overflow_abort (data : List Nat)
    (hlen : 10 ≤ data.length)
    (hcont : ∀ i, i < 10 → 128 ≤ data.getD i 0 ∧ data.getD i 0 < 256) :
    ∃ r, decodeVarUint data = .ok (r, data.drop 10) := by
  have h := decodeLoop_contbytes 10 data 0 0 (by norm_num) (by norm_num) hlen hcont
  simpa [decodeVarUint] using h

/-- Witness for C2 on twelve continuation bytes: exactly ten are consumed. -/
theorem decode_var_uint_overflow_abort_witness :
    10 ≤ (List.replicate 12 (200 : Nat)).length ∧
    ∃ r, decodeVarUint (List.replicate 12 (200 : Nat)) =
      .ok (r, (List.replicate 12 (200 : Nat)).drop 10) :=
  ⟨by decide, decode_var_uint_overflow_abort _ (by decide) (by decide)⟩

theorem decodeVarUintLoop_error_eof :
    ∀ (data : List Nat) (acc s : Nat) (e : ProtocolError),
      decodeVarUintLoop data acc s = .error e → e = .unexpectedEof := by
  intro data
  induction data with
  | nil =>
    intro acc s e h
    simp only [decodeVarUintLoop, Except.error.injEq] at h
    exact h.symm
  | cons b rest ih =>
    intro acc s e h
    simp only [decodeVarUintLoop] at h
    split at h
    · simp at h
    · split at h
      · simp at h
      · exact ih _ _ _ h

theorem decodeVarUint_error_eof (data : List Nat) (e : ProtocolError)
    (h : decodeVarUint data = .error e) : e = .unexpectedEof :=
  decodeVarUintLoop_error_eof data 0 0 e h

theorem decodeVarBytes_error_eof (data : List Nat) (e : ProtocolError)
    (h : decodeVarBytes data = .error e) : e = .unexpectedEof := by
  rw [decodeVarBytes] at h
  cases hu : decodeVarUint data with
  | error e2 =>
    rw [hu, exceptBind_error] at h
    cases h
    exact decodeVarUint_error_eof data _ hu
  | ok p =>
    obtain ⟨len, rest⟩ := p
    rw [hu, exceptBind_ok] at h
    dsimp only at h
    split at h
    · cases h
      rfl
    · simp at h

theorem decodeVarString_error (data : List Nat) (e : ProtocolError)
    (h : decodeVarString data = .error e) :
    e = .unexpectedEof ∨ e = .invalidUtf8 := by
  rw [decodeVarString] at h
  cases hb : decodeVarBytes data with
  | error e2 =>
    rw [hb, exceptBind_error] at h
    cases h
    exact Or.inl (decodeVarBytes_error_eof data _ hb)
  | ok p =>
    obtain ⟨bytes, rest⟩ := p
    rw [hb, exceptBind_ok] at h
    dsimp only at h
    split at h
    · simp at h
    · cases h
      exact Or.inr rfl

theorem messageTypeFromByte_shape (b : Nat) :
    (∃ mt, messageTypeFromByte b = .ok mt) ∨
      messageTypeFromByte b = .error (.unknownMessageType b) := by
  unfold messageTypeFromByte
  split_ifs <;> first | exact Or.inl ⟨_, rfl⟩ | exact Or.inr rfl

theorem syncTypeFromByte_shape (b : Nat) :
    (∃ st, syncTypeFromByte b = .ok st) ∨
      syncTypeFromByte b = .error (.unknownSyncType b) := by
  unfold syncTypeFromByte
  split_ifs <;> first | exact Or.inl ⟨_, rfl⟩ | exact Or.inr rfl

theorem decodeMessage_no_ioError :
    ∀ (data : List Nat) (s : String), decodeMessage data ≠ .error (.ioError s) := by
  intro data s
  cases data with
  | nil => simp [decodeMessage]
  | cons b rest =>
    rcases messageTypeFromByte_shape b with ⟨mt, hmt⟩ | hmt
    · cases mt with
      | sync =>
        cases rest with
        | nil => simp [decodeMessage, hmt]
        | cons sb r2 =>
          rcases syncTypeFromByte_shape sb with ⟨st, hst⟩ | hst
          · cases hvb : decodeVarBytes r2 with
            | error e =>
              have he := decodeVarBytes_error_eof r2 e hvb
              subst he
              cases st <;> simp [decodeMessage, hmt, hst, hvb, exceptBind_error]
            | ok p =>
              obtain ⟨payload, r3⟩ := p
              cases st <;> simp [decodeMessage, hmt, hst, hvb, exceptBind_ok]
          · simp [decodeMessage, hmt, hst]
      | awareness => simp [decodeMessage, hmt]
      | commitMeta =>
        cases hs1 : decodeVarString rest with
        | error e =>
          rcases decodeVarString_error rest e hs1 with he | he <;>
            (subst he; simp [decodeMessage, hmt, hs1, exceptBind_error])
        | ok p1 =>
          obtain ⟨pc, r1⟩ := p1
          cases hu : decodeVarUint r1 with
          | error e =>
            have he := decodeVarUint_error_eof r1 e hu
            subst he
            simp [decodeMessage, hmt, hs1, hu, exceptBind_ok, exceptBind_error]
          | ok p2 =>
            obtain ⟨ts, r2⟩ := p2
            cases hs2 : decodeVarString r2 with
            | error e =>
              rcases decodeVarString_error r2 e hs2 with he | he <;>
                (subst he;
                  simp [decodeMessage, hmt, hs1, hu, hs2, exceptBind_ok, exceptBind_error])
            | ok p3 =>
              obtain ⟨author, r3⟩ := p3
              by_cases hemp : r3.isEmpty
              · have h3 : r3 = [] := by simpa [List.isEmpty_iff] using hemp
                simp [decodeMessage, hmt, hs1, hu, hs2, h3, exceptBind_ok]
              · cases hs3 : decodeVarString r3 with
                | error e =>
                  rcases decodeVarString_error r3 e hs3 with he | he <;>
                    (subst he;
                      simp only [decodeMessage, hmt, hs1, hu, hs2, hs3, hemp,
                        exceptBind_ok, exceptBind_error];
                      split <;> simp)
                | ok p4 =>
                  obtain ⟨msg, r4⟩ := p4
                  simp only [decodeMessage, hmt, hs1, hu, hs2, hs3, hemp,
                    exceptBind_ok, exceptBind_error]
                  split <;> simp
      | blueEvent =>
        cases hs1 : decodeVarString rest with
        | error e =>
          rcases decodeVarString_error rest e hs1 with he | he <;>
            (subst he; simp [decodeMessage, hmt, hs1, exceptBind_error])
        | ok p1 =>
          obtain ⟨d, r1⟩ := p1
          cases hs2 : decodeVarString r1 with
          | error e =>
            rcases decodeVarString_error r1 e hs2 with he | he <;>
              (subst he; simp [decodeMessage, hmt, hs1, hs2, exceptBind_ok, exceptBind_error])
          | ok p2 =>
            obtain ⟨c, r2⟩ := p2
            cases hu : decodeVarUint r2 with
            | error e =>
              have he := decodeVarUint_error_eof r2 e hu
              subst he
              simp [decodeMessage, hmt, hs1, hs2, hu, exceptBind_ok, exceptBind_error]
            | ok p3 =>
              obtain ⟨ts, r3⟩ := p3
              simp [decodeMessage, hmt, hs1, hs2, hu, exceptBind_ok]
      | redEvent =>
        cases hs1 : decodeVarString rest with
        | error e =>
          rcases decodeVarString_error rest e hs1 with he | he <;>
            (subst he; simp [decodeMessage, hmt, hs1, exceptBind_error])
        | ok p1 =>
          obtain ⟨et, r1⟩ := p1
          cases hs2 : decodeVarString r1 with
          | error e =>
            rcases decodeVarString_error r1 e hs2 with he | he <;>
              (subst he; simp [decodeMessage, hmt, hs1, hs2, exceptBind_ok, exceptBind_error])
          | ok p2 =>
            obtain ⟨pl, r2⟩ := p2
            simp [decodeMessage, hmt, hs1, hs2, exceptBind_ok]
    · simp [decodeMessage, hmt]

/-- C10: Decoder totality.  `decode_message` always returns a message or one
of the protocol errors `UnexpectedEof` / `UnknownMessageType` /
`UnknownSyncType` / `InvalidUtf8` — it can never produce the `Io` variant,
never panics (the embedding is a total function), empty input yields
`UnexpectedEof`, unrecognized type bytes yield the unknown-type errors, and
`decode_var_bytes` fails with `UnexpectedEof` whenever the declared length
exceeds the remaining input. -/
theorem decoder_totality :
    (∀ (data : List Nat) (s : String), decodeMessage data ≠ .error (.ioError s)) ∧
    decodeMessage [] = .error .unexpectedEof ∧
    (∀ (b : Nat) (rest : List Nat), b ≠ 0 → b ≠ 1 → b ≠ 3 → b ≠ 4 → b ≠ 5 →
      decodeMessage (b :: rest) = .error (.unknownMessageType b)) ∧
    (∀ (sb : Nat) (r : List Nat), sb ≠ 0 → sb ≠ 1 → sb ≠ 2 →
      decodeMessage (0 :: sb :: r) = .error (.unknownSyncType sb)) ∧
    (∀ (data : List Nat) (len : Nat) (rest : List Nat),
      decodeVarUint data = .ok (len, rest) → rest.length < len →
      decodeVarBytes data = .error .unexpectedEof) := by
  refine ⟨decodeMessage_no_ioError, by simp [decodeMessage], ?_, ?_, ?_⟩
  · intro b rest h0 h1 h3 h4 h5
    simp [decodeMessage, messageTypeFromByte, h0, h1, h3, h4, h5]
  · intro sb r h0 h1 h2
    simp [decodeMessage, messageTypeFromByte, syncTypeFromByte, h0, h1, h2]
  · intro data len rest h hlt
    rw [decodeVarBytes, h, exceptBind_ok]
    dsimp only
    rw [if_pos hlt]

/-- Witness for C10 at concrete inputs. -/
theorem decoder_totality_witness :
    decodeMessage [3] ≠ .error (.ioError "disk") ∧
    decodeMessage [] = .error .unexpectedEof ∧
    decodeMessage [9, 1, 2] = .error (.unknownMessageType 9) ∧
    decodeMessage [0, 7] = .error (.unknownSyncType 7) ∧
    decodeVarBytes [5, 1, 2] = .error .unexpectedEof :=
  ⟨decoder_totality.1 [3] "disk", decoder_totality.2.1,
    decoder_totality.2.2.1 9 [1, 2] (by decide) (by decide) (by decide) (by decide)
      (by decide),
    decoder_totality.2.2.2.1 7 [] (by decide) (by decide) (by decide),
    decoder_totality.2.2.2.2 [5, 1, 2] 5 [1, 2] (by decide) (by decide)⟩

/-! ## Room / session layer (src/ws/room.rs) -/

/-- Error from room operations (`enum RoomError`). -/
inductive RoomError where
  | documentNotFound
  | noYjsState
  | decodeError (msg : String)
  | applyError (msg : String)
  deriving DecidableEq, Repr

/-- Modelled from the spec: a persisted commit as returned by
`CommitStore::get_commit` (the commit store itself is an external
collaborator; room.rs only reads the base64 `update` field). -/
structure Commit where
  update : String

/-- Modelled from the spec: `CommitNotification { doc_id, commit_id,
timestamp }` (src/events.rs is not among the provided sources; room.rs reads
`doc_id` and `commit_id`). -/
structure CommitNotification where
  docId : String
  commitId : String
  timestamp : Nat

/-- A `Room`: the connection map is modelled by its list of connection ids,
and the optional commit store by the result of `get_commit` per commit id
(`None` models a lookup `Err`). -/
structure RoomModel where
  docId : String
  connections : List String
  commitStore : Option (String → Option Commit)

/-- `Room::broadcast_except`: offer (via `try_send_binary`) the message to
every connection whose id differs from `except_conn_id`.  The offered sends
are returned as (connection id, bytes) pairs; `try_send_binary`'s boolean is
discarded by the source (`let _ = ...`). -/
def broadcastExcept (room : RoomModel) (exceptConnId : String)
    (message : List Nat) : List (String × List Nat) :=
  room.connections.filterMap fun connId =>
    if connId ≠ exceptConnId then some (connId, message) else none

/-- `Room::broadcast_all`: offer the message to every connection. -/
def broadcastAll (room : RoomModel) (message : List Nat) :
    List (String × List Nat) :=
  room.connections.map fun connId => (connId, message)

/-- `Room::handle_update`: apply the update to the document store, then
re-encode and broadcast to all other connections.  `applyResult` abstracts
the outcome of `doc_store.apply_yjs_update` (the CRDT library is an external
collaborator).  Returns the room result and the offered sends. -/
def handleUpdate (room : RoomModel) (applyResult : Except String Unit)
    (fromConnId : String) (update : List Nat) :
    Except RoomError Unit × List (String × List Nat) :=
  match applyResult with
  | .error e => (.error (.applyError e), [])
  | .ok _ => (.ok (), broadcastExcept room fromConnId (encodeUpdate update))

/-- `Room::handle_commit_notification`: ignore foreign doc ids; fetch the
commit from the commit store, base64-decode its update (`b64decode`
abstracts `crate::b64::decode`), re-encode as an Update frame and broadcast
to all connections. -/
def handleCommitNotification (room : RoomModel)
    (b64decode : String → Option (List Nat)) (n : CommitNotification) :
    List (String × List Nat) :=
  if n.docId ≠ room.docId then []
  else
    match room.commitStore with
    | none => []
    | some getCommit =>
      match getCommit n.commitId with
      | none => []
      | some commit =>
        match b64decode commit.update with
        | none => []
        | some updateBytes => broadcastAll room (encodeUpdate updateBytes)

/-- C3: Echo suppression vs. commit fan-out.  A successful
`Room::handle_update(C, U)` offers the re-encoded Update frame to exactly
the connections other than C (C is sent nothing), while
`Room::handle_commit_notification` for this room's doc id (with the commit
fetched and decoded) broadcasts to all connections with no exclusion. -/
theorem room_echo_suppression_and_commit_fanout :
    (∀ (room : RoomModel) (fromConn : String) (update : List Nat)
        (res : Except RoomError Unit) (sends : List (String × List Nat)),
      handleUpdate room (.ok ()) fromConn update = (res, sends) →
      res = .ok () ∧
      (∀ c, c ∈ room.connections → c ≠ fromConn →
        (c, encodeUpdate update) ∈ sends) ∧
      (∀ c m, (c, m) ∈ sends →
        c ∈ room.connections ∧ c ≠ fromConn ∧ m = encodeUpdate update) ∧
      (∀ m, (fromConn, m) ∉ sends)) ∧
    (∀ (room : RoomModel) (b64 : String → Option (List Nat))
        (n : CommitNotification) (getCommit : String → Option Commit)
        (commit : Commit) (bytes : List Nat),
      n.docId = room.docId →
      room.commitStore = some getCommit →
      getCommit n.commitId = some commit →
      b64 commit.update = some bytes →
      handleCommitNotification room b64 n =
        room.connections.map fun c => (c, encodeUpdate bytes)) := by
  constructor
  · intro room fromConn update res sends h
    rw [handleUpdate] at h
    injection h with h1 h2
    subst h1
    subst h2
    refine ⟨rfl, ?_, ?_, ?_⟩
    · intro c hc hne
      simp only [broadcastExcept, List.mem_filterMap]
      exact ⟨c, hc, by simp [hne]⟩
    · intro c m hm
      simp only [broadcastExcept, List.mem_filterMap] at hm
      obtain ⟨a, ha, hif⟩ := hm
      by_cases hcase : a = fromConn
      · simp [hcase] at hif
      · simp only [ne_eq, hcase, not_false_iff, if_true, Option.some.injEq,
          Prod.mk.injEq] at hif
        obtain ⟨hac, hum⟩ := hif
        subst hac
        exact ⟨ha, hcase, hum.symm⟩
    · intro m hm
      simp only [broadcastExcept, List.mem_filterMap] at hm
      obtain ⟨a, ha, hif⟩ := hm
      by_cases hcase : a = fromConn
      · simp [hcase] at hif
      · simp only [ne_eq, hcase, not_false_iff, if_true, Option.some.injEq,
          Prod.mk.injEq] at hif
        exact hif.1
  · intro room b64 n getCommit commit bytes hdoc hstore hcommit hb64
    rw [handleCommitNotification, if_neg (by simp [hdoc]), hstore]
    dsimp only
    rw [hcommit]
    dsimp only
    rw [hb64]
    rfl

/-- Witness for C3: in a room with connections a, b, c, an update from b is
offered to a but never to b, and a commit notification fans out to every
connection. -/
theorem room_echo_suppression_and_commit_fanout_witness :
    ("a", encodeUpdate [9]) ∈
      (handleUpdate ⟨"d", ["a", "b", "c"], none⟩ (.ok ()) "b" [9]).2 ∧
    ("b", encodeUpdate [9]) ∉
      (handleUpdate ⟨"d", ["a", "b", "c"], none⟩ (.ok ()) "b" [9]).2 ∧
    handleCommitNotification ⟨"d", ["a", "b"], some (fun _ => some ⟨"QUJD"⟩)⟩
      (fun s => if s = "QUJD" then some [65, 66, 67] else none) ⟨"d", "c1", 5⟩ =
      [("a", encodeUpdate [65, 66, 67]), ("b", encodeUpdate [65, 66, 67])] := by
  obtain ⟨h1, h2⟩ := room_echo_suppression_and_commit_fanout
  have ha := h1 ⟨"d", ["a", "b", "c"], none⟩ "b" [9]
    (handleUpdate ⟨"d", ["a", "b", "c"], none⟩ (.ok ()) "b" [9]).1
    (handleUpdate ⟨"d", ["a", "b", "c"], none⟩ (.ok ()) "b" [9]).2 rfl
  have hb := h2 ⟨"d", ["a", "b"], some (fun _ => some ⟨"QUJD"⟩)⟩
    (fun s => if s = "QUJD" then some [65, 66, 67] else none) ⟨"d", "c1", 5⟩
    (fun _ => some ⟨"QUJD"⟩) ⟨"QUJD"⟩ [65, 66, 67] rfl rfl rfl (by simp)
  refine ⟨ha.2.1 "a" (by decide) (by decide), ha.2.2.2 (encodeUpdate [9]), ?_⟩
  rw [hb]
  rfl

/-! ## Connection nodes (src/node/connection_node.rs) -/

/-- Modelled from the spec: the node error type (src/node/types.rs is not
among the provided sources); `receive_*` fails with `Shutdown` after
`shutdown()`. -/
inductive NodeError where
  | shutdown
  deriving DecidableEq, Repr

/-- Modelled from the spec: an `Edit` —
`{ doc_id, update_bytes, parent_cid?, author?, message?, ts }`
(src/node/types.rs is not among the provided sources). -/
structure Edit where
  docId : String
  updateBytes : List Nat
  parentCid : Option String
  author : Option String
  message : Option String
  ts : Nat

/-- A blue subscription handle (`BlueSubscription { source, receiver }`);
the broadcast receiver itself is opaque, identified here by the source node
id it reads from. -/
structure BlueSubscriptionM where
  source : String
  deriving DecidableEq, Repr

/-- A `ConnectionNode`: server-generated id, target id, the target node's
`subscribe_blue` (held through `target: Arc<dyn Node>`), and the
`is_shutdown` atomic flag. -/
structure ConnectionNodeM where
  id : String
  targetId : String
  targetSubscribeBlue : Unit → BlueSubscriptionM
  isShutdown : Bool

/-- `ConnectionNode::subscribe_blue`: forwards to the target's blue
subscription — the connection node has no blue channel of its own. -/
def ConnectionNodeM.subscribeBlue (n : ConnectionNodeM) : BlueSubscriptionM :=
  n.targetSubscribeBlue ()

/-- `ConnectionNode::blue_subscriber_count`: always 0. -/
def ConnectionNodeM.blueSubscriberCount (_ : ConnectionNodeM) : Nat := 0

/-- `ConnectionNode::receive_edit`: `Err(Shutdown)` when the shutdown flag
is set, otherwise a no-op `Ok(())`.  The (unchanged) node is returned to
make the absence of state mutation explicit. -/
def ConnectionNodeM.receiveEdit (n : ConnectionNodeM) (_ : Edit) :
    Except NodeError Unit × ConnectionNodeM :=
  if n.isShutdown then (.error .shutdown, n) else (.ok (), n)

/-- `ConnectionNode::shutdown`: set the shutdown flag, return `Ok(())`. -/
def ConnectionNodeM.shutdownNode (n : ConnectionNodeM) :
    Except NodeError Unit × ConnectionNodeM :=
  (.ok (), { n with isShutdown := true })

/-- C9: ConnectionNode port behaviour.  `subscribe_blue` always delegates to
the target node's blue subscription, `blue_subscriber_count` is 0 in every
state, `receive_edit` is a state-preserving success while the node is not
shut down, and after `shutdown()` every `receive_edit` fails with
`Shutdown` (still state-preserving). -/
theorem connection_node_ports :
    (∀ n : ConnectionNodeM, n.subscribeBlue = n.targetSubscribeBlue ()) ∧
    (∀ n : ConnectionNodeM, n.blueSubscriberCount = 0) ∧
    (∀ (n : ConnectionNodeM) (e : Edit), n.isShutdown = false →
      n.receiveEdit e = (.ok (), n)) ∧
    (∀ (n : ConnectionNodeM) (e : Edit),
      (n.shutdownNode.2).receiveEdit e = (.error .shutdown, n.shutdownNode.2)) := by
  refine ⟨fun n => rfl, fun n => rfl, ?_, ?_⟩
  · intro n e h
    simp [ConnectionNodeM.receiveEdit, h]
  · intro n e
    simp [ConnectionNodeM.receiveEdit, ConnectionNodeM.shutdownNode]

/-- Witness for C9 on a concrete node and edit. -/
theorem connection_node_ports_witness :
    (ConnectionNodeM.mk "c1" "d1" (fun _ => ⟨"d1"⟩) false).receiveEdit
        ⟨"d1", [1], none, none, none, 0⟩ =
      (.ok (), ConnectionNodeM.mk "c1" "d1" (fun _ => ⟨"d1"⟩) false) ∧
    ((ConnectionNodeM.mk "c1" "d1" (fun _ => ⟨"d1"⟩) false).shutdownNode.2).receiveEdit
        ⟨"d1", [1], none, none, none, 0⟩ =
      (.error .shutdown,
        (ConnectionNodeM.mk "c1" "d1" (fun _ => ⟨"d1"⟩) false).shutdownNode.2) :=
  ⟨connection_node_ports.2.2.1 _ _ rfl, connection_node_ports.2.2.2 _ _⟩

/-! ## Content types and document store (src/document.rs) -/

/-- `enum ContentType` from src/document.rs. -/
inductive ContentType where
  | json
  | xml
  | text
  deriving DecidableEq, Repr

/-- `ContentType::from_mime`. -/
def ContentType.fromMime (mime : String) : Option ContentType :=
  if mime = "application/json" then some .json
  else if mime = "application/xml" then some .xml
  else if mime = "text/xml" then some .xml
  else if mime = "text/plain" then some .text
  else none

/-- `ContentType::to_mime`. -/
def ContentType.toMime : ContentType → String
  | .json => "application/json"
  | .xml => "application/xml"
  | .text => "text/plain"

/-- `ContentType::default_content`. -/
def ContentType.defaultContent : ContentType → String
  | .json => "\x7b\x7d"
  | .xml => "<?xml version=\"1.0\" encoding=\"UTF-8\"?><root/>"
  | .text => ""

/-- A stored document: its rendered content and content type. -/
structure Document where
  content : String
  contentType : ContentType
  deriving DecidableEq

/-- The document store's id → document map, as an association list. -/
abbrev DocStore := List (String × Document)

/-- `DocumentStore::get_document`. -/
def getDocument (store : DocStore) (id : String) : Option Document :=
  match store with
  | [] => none
  | (k, d) :: rest => if k = id then some d else getDocument rest id

/-- Modelled from the spec: `DocumentStore::get_or_create_with_id(id,
content_type)` — idempotent, preserves an existing document; creates the
document with its content type's default content when missing.  (The method
is called by src/fs/reconciler.rs but its definition is not among the
provided sources; creation defaults follow `DocumentStore::create_document`
in src/document.rs and spec §4.3.) -/
def getOrCreateWithId (store : DocStore) (id : String) (ct : ContentType) : DocStore :=
  match getDocument store id with
  | some _ => store
  | none => (id, ⟨ct.defaultContent, ct⟩) :: store

/-! ## Filesystem reconciler (src/fs/reconciler.rs) -/

/-- Modelled from the spec: `Entry` (FsEntry) — a Doc carries optional
explicit `node_id` and `content_type`; a Dir carries optional `node_id`
(document-backed) and/or inline `entries` (spec §3; src/fs/schema.rs is not
among the provided sources, field usage follows src/fs/reconciler.rs). -/
inductive FsEntry where
  | doc (nodeId : Option String) (contentType : Option String)
  | dir (nodeId : Option String) (contentType : Option String)
      (entries : Option (List (String × FsEntry)))

/-- Modelled from the spec: `FsSchema { version, root }` (spec §3). -/
structure FsSchema where
  version : Nat
  root : Option FsEntry

/-- Filesystem errors used by the reconciler (src/fs/error.rs is not among
the provided sources; the three variants are the ones reconciler.rs
constructs). -/
inductive FsError where
  | parseError (msg : String)
  | unsupportedVersion (v : Nat)
  | schemaError (msg : String)
  deriving DecidableEq

/-- Modelled from the spec: `Entry::validate_name` — child names must be
non-empty, contain no slash and no NUL, and not be `.` or `..`
(spec §4.6; src/fs/schema.rs is not among the provided sources). -/
def validateName (name : String) : Except FsError Unit :=
  if name = "" then .error (.schemaError "empty name")
  else if name.toList.contains (Char.ofNat 47) then
    .error (.schemaError ("name contains slash: " ++ name))
  else if name.toList.contains (Char.ofNat 0) then
    .error (.schemaError ("name contains NUL: " ++ name))
  else if name = "." ∨ name = ".." then
    .error (.schemaError ("invalid name: " ++ name))
  else .ok ()

/-- `FilesystemReconciler::derive_doc_id`. -/
def deriveDocId (fsRootId : String) (path : String) : String :=
  if path = "" then fsRootId else fsRootId ++ ":" ++ path

/-- Content-type resolution used by the walk:
`content_type.as_deref().and_then(ContentType::from_mime).unwrap_or(Json)`. -/
def resolveContentType (ct : Option String) : ContentType :=
  (ct.bind ContentType.fromMime).getD .json

/-- The reconciler's read-only context during a walk: the fs-root id, the
document store contents (read through `get_document`), and the JSON schema
parser (`serde_json::from_str::<FsSchema>`, an external collaborator;
`none` models a parse error). -/
structure ReconcilerCtx where
  fsRootId : String
  docs : DocStore
  parse : String → Option FsSchema

/-- The mutable state threaded through the walk: `doc_backed_dirs`,
`recursion_stack` (HashSets, as duplicate-free lists),
`last_valid_node_schemas` (HashMap), and the number of cycle warnings
emitted via `tracing::warn!`. -/
structure WalkSt where
  docBackedDirs : List String
  recursionStack : List String
  cache : List (String × FsSchema)
  cycleWarnings : Nat

/-- HashSet insert. -/
def insertSet (s : List String) (x : String) : List String :=
  if x ∈ s then s else x :: s

/-- HashSet remove. -/
def removeSet (s : List String) (x : String) : List String :=
  s.filter (fun y => y ≠ x)

/-- HashMap lookup for the nested-schema cache. -/
def lookupMap (m : List (String × FsSchema)) (k : String) : Option FsSchema :=
  match m with
  | [] => none
  | (k2, v) :: rest => if k2 = k then some v else lookupMap rest k

/-- HashMap insert (replacing) for the nested-schema cache. -/
def insertMap (m : List (String × FsSchema)) (k : String) (v : FsSchema) :
    List (String × FsSchema) :=
  (k, v) :: m.filter (fun p => p.1 ≠ k)

/-- Does a schema have a root that is present but not a directory?
(`!matches!(root, Entry::Dir(_))`) -/
def rootNotDir (schema : FsSchema) : Bool :=
  match schema.root with
  | some (.doc _ _) => true
  | _ => false

mutual

/-- `FilesystemReconciler::collect_entries_with_dirs` (src/fs/reconciler.rs
lines 96–204).  `fuel` is an embedding artifact for the doc-backed
recursion; the recursion-stack discipline makes any fuel above the number
of distinct store ids sufficient (see `reconciler_cycle_tolerance`). -/
def collectEntries (ctx : ReconcilerCtx) (fuel : Nat) (entry : FsEntry)
    (currentPath : String) (st : WalkSt) :
    Option (Except FsError (List (String × String × ContentType)) × WalkSt) :=
  match entry with
  | .doc nodeId contentType =>
    some (.ok [(currentPath, nodeId.getD (deriveDocId ctx.fsRootId currentPath),
      resolveContentType contentType)], st)
  | .dir nodeId contentType entries =>
    if nodeId.isSome ∧ entries.isSome then
      some (.error (.schemaError ("Directory at " ++
        (if currentPath = "" then "/" else currentPath) ++
        " has both node_id and entries (mutually exclusive)")), st)
    else
      match nodeId with
      | some docId =>
        let st1 : WalkSt := { st with docBackedDirs := insertSet st.docBackedDirs docId }
        let acc := [(currentPath, docId, resolveContentType contentType)]
        if docId ∈ st1.recursionStack then
          processEntries ctx fuel entries currentPath
            { st1 with cycleWarnings := st1.cycleWarnings + 1 } acc
        else
          match collectDocBacked ctx fuel docId currentPath
              { st1 with recursionStack := insertSet st1.recursionStack docId } with
          | none => none
          | some (childOpt, st3) =>
            processEntries ctx fuel entries currentPath
              { st3 with recursionStack := removeSet st3.recursionStack docId }
              (acc ++ childOpt.getD [])
      | none => processEntries ctx fuel entries currentPath st []
termination_by (fuel, 3, sizeOf entry)

/-- The `if let Some(ref entries) = dir.entries` tail of
`collect_entries_with_dirs`: walk inline children and append their triples
to the accumulator. -/
def processEntries (ctx : ReconcilerCtx) (fuel : Nat)
    (entries : Option (List (String × FsEntry))) (currentPath : String)
    (st : WalkSt) (acc : List (String × String × ContentType)) :
    Option (Except FsError (List (String × String × ContentType)) × WalkSt) :=
  match entries with
  | none => some (.ok acc, st)
  | some es =>
    match collectChildren ctx fuel es currentPath st with
    | none => none
    | some (.error e, st1) => some (.error e, st1)
    | some (.ok rs, st1) => some (.ok (acc ++ rs), st1)
termination_by (fuel, 3, sizeOf entries)

/-- The `for (name, child) in entries` loop: validate each name and recurse
into each child, accumulating triples; errors abort the loop. -/
def collectChildren (ctx : ReconcilerCtx) (fuel : Nat)
    (children : List (String × FsEntry)) (parentPath : String) (st : WalkSt) :
    Option (Except FsError (List (String × String × ContentType)) × WalkSt) :=
  match children with
  | [] => some (.ok [], st)
  | (name, child) :: rest =>
    match validateName name with
    | .error e => some (.error e, st)
    | .ok _ =>
      match collectEntries ctx fuel child
          (if parentPath = "" then name else parentPath ++ "/" ++ name) st with
      | none => none
      | some (.error e, st1) => some (.error e, st1)
      | some (.ok rs, st1) =>
        match collectChildren ctx fuel rest parentPath st1 with
        | none => none
        | some (.error e, st2) => some (.error e, st2)
        | some (.ok rs2, st2) => some (.ok (rs ++ rs2), st2)
termination_by (fuel, 3, sizeOf children)

/-- `collect_doc_backed_dir_entries_with_dirs` (lines 207–301): fetch the
document (absent document is not an error), skip empty content, parse it
(falling back to the cached schema on parse failure), then validate. -/
def collectDocBacked (ctx : ReconcilerCtx) (fuel : Nat)
    (docId basePath : String) (st : WalkSt) :
    Option (Option (List (String × String × ContentType)) × WalkSt) :=
  match getDocument ctx.docs docId with
  | none => some (none, st)
  | some doc =>
    if doc.content = "" ∨ doc.content = "\x7b\x7d" then some (none, st)
    else
      match ctx.parse doc.content with
      | some schema => docBackedChecks ctx fuel docId basePath schema st
      | none =>
        match lookupMap st.cache docId with
        | some cached => docBackedChecks ctx fuel docId basePath cached st
        | none => some (none, st)
termination_by (fuel, 2, 0)

/-- The version and root checks of `collect_doc_backed_dir_entries_with_dirs`
(falling back to the cached schema on failure), then caching the valid
schema and descending. -/
def docBackedChecks (ctx : ReconcilerCtx) (fuel : Nat)
    (docId basePath : String) (schema : FsSchema) (st : WalkSt) :
    Option (Option (List (String × String × ContentType)) × WalkSt) :=
  if schema.version ≠ 1 then
    match lookupMap st.cache docId with
    | some cached => collectFromSchema ctx fuel cached basePath st
    | none => some (none, st)
  else if rootNotDir schema then
    match lookupMap st.cache docId with
    | some cached => collectFromSchema ctx fuel cached basePath st
    | none => some (none, st)
  else
    collectFromSchema ctx fuel schema basePath
      { st with cache := insertMap st.cache docId schema }
termination_by (fuel, 1, 0)

/-- `collect_from_valid_doc_schema` (lines 304–329): descend into the
nested root with `base_path` as base; a walk error is logged and turns the
whole subtree into `None`. -/
def collectFromSchema (ctx : ReconcilerCtx) (fuel : Nat) (schema : FsSchema)
    (basePath : String) (st : WalkSt) :
    Option (Option (List (String × String × ContentType)) × WalkSt) :=
  match schema.root with
  | none => some (some [], st)
  | some root =>
    match fuel with
    | 0 => none
    | f + 1 =>
      match collectEntries ctx f root basePath st with
      | none => none
      | some (.ok entries, st1) => some (some entries, st1)
      | some (.error _, st1) => some (none, st1)
termination_by (fuel, 0, 0)

end

/-- The reconciler's mutable state across `reconcile` calls: the document
store, `known_documents`, `last_valid_schema`, `last_valid_node_schemas`. -/
structure RecSt where
  docs : DocStore
  knownDocuments : List String
  lastValidSchema : Option FsSchema
  cache : List (String × FsSchema)

/-- Step 5 of `reconcile`: for each collected `(path, doc_id, content_type)`
triple, create the document if it is missing from the store, and track it in
`known_documents` regardless. -/
def createMissing (st : RecSt) :
    List (String × String × ContentType) → RecSt
  | [] => st
  | (_, docId, ct) :: rest =>
    let docs' := if (getDocument st.docs docId).isSome then st.docs
      else getOrCreateWithId st.docs docId ct
    createMissing
      { st with docs := docs',
                knownDocuments := insertSet st.knownDocuments docId } rest

/-- `FilesystemReconciler::reconcile` (src/fs/reconciler.rs lines 41–91):
parse, validate version and root, walk the tree with empty
`ignored_dirs`/`recursion_stack`, create missing documents, cache the
schema.  The nested-schema cache is threaded through even when the walk
fails (it lives behind its own lock in the source). -/
def reconcile (fsRootId : String) (parse : String → Option FsSchema)
    (fuel : Nat) (st : RecSt) (content : String) :
    Option (Except FsError Unit × RecSt) :=
  match parse content with
  | none => some (.error (.parseError content), st)
  | some schema =>
    if schema.version ≠ 1 then
      some (.error (.unsupportedVersion schema.version), st)
    else if rootNotDir schema then
      some (.error (.schemaError "root must be a directory"), st)
    else
      match schema.root with
      | some root =>
        match collectEntries ⟨fsRootId, st.docs, parse⟩ fuel root ""
            ⟨[], [], st.cache, 0⟩ with
        | none => none
        | some (.error e, wst) => some (.error e, { st with cache := wst.cache })
        | some (.ok entries, wst) =>
          some (.ok (), { createMissing { st with cache := wst.cache } entries with
            lastValidSchema := some schema })
      | none =>
        some (.ok (), { createMissing st [] with lastValidSchema := some schema })

/-- C6: Derived document ids.  `derive_doc_id` maps the empty path to the
fs-root id and any other path to `fs_root_id:path`; the walk's Doc arm
produces exactly one triple whose doc id is the explicit `node_id` when
set and the derived id otherwise. -/
theorem derived_doc_ids :
    (∀ fsRootId : String, deriveDocId fsRootId "" = fsRootId) ∧
    (∀ (fsRootId p : String), p ≠ "" →
      deriveDocId fsRootId p = fsRootId ++ ":" ++ p) ∧
    (∀ (ctx : ReconcilerCtx) (fuel : Nat) (nid : Option String)
        (ct : Option String) (path : String) (st : WalkSt),
      collectEntries ctx fuel (.doc nid ct) path st =
        some (.ok [(path, nid.getD (deriveDocId ctx.fsRootId path),
          resolveContentType ct)], st)) := by
  refine ⟨fun fsRootId => rfl, ?_, ?_⟩
  · intro fsRootId p hp
    rw [deriveDocId, if_neg hp]
  · intro ctx fuel nid ct path st
    rw [collectEntries]

/-- Witness for C6 at a nonempty path. -/
theorem derived_doc_ids_witness :
    deriveDocId "fs" "a.txt" = "fs:a.txt" ∧
    collectEntries ⟨"fs", [], fun _ => none⟩ 1 (.doc none none) "a.txt"
        ⟨[], [], [], 0⟩ =
      some (.ok [("a.txt", Option.getD none (deriveDocId "fs" "a.txt"),
        resolveContentType none)], ⟨[], [], [], 0⟩) :=
  ⟨derived_doc_ids.2.1 "fs" "a.txt" (by decide),
    derived_doc_ids.2.2 ⟨"fs", [], fun _ => none⟩ 1 none none "a.txt" ⟨[], [], [], 0⟩⟩

theorem getDocument_getOrCreate_isSome (store : DocStore) (id id2 : String)
    (ct : ContentType) (h : (getDocument store id).isSome) :
    (getDocument (getOrCreateWithId store id2 ct) id).isSome := by
  rw [getOrCreateWithId]
  cases hx : getDocument store id2 with
  | some d => exact h
  | none =>
    simp only [getDocument]
    by_cases he : id2 = id
    · simp [he]
    · simp only [he, if_false]
      exact h

theorem createMissing_docs_mono :
    ∀ (entries : List (String × String × ContentType)) (st : RecSt) (id : String),
      (getDocument st.docs id).isSome →
      (getDocument (createMissing st entries).docs id).isSome := by
  intro entries
  induction entries with
  | nil =>
    intro st id h
    exact h
  | cons triple rest ih =>
    intro st id h
    obtain ⟨p, docId, ct⟩ := triple
    rw [createMissing]
    apply ih
    dsimp only
    by_cases hx : (getDocument st.docs docId).isSome
    · simp only [hx, if_true]
      exact h
    · simp only [hx, if_false]
      exact getDocument_getOrCreate_isSome st.docs id docId ct h

/-- C4: Reconciler non-destructiveness.  `reconcile` never removes a
document: every id present in the store before the call is still present in
the resulting store, whether the call returns `Ok` or an error.  In
particular a document created by an earlier schema survives reconciling a
schema that omits it. -/
theorem reconciler_nondestructive
    (fsRootId : String) (parse : String → Option FsSchema) (fuel : Nat)
    (st : RecSt) (content : String) (res : Except FsError Unit) (st' : RecSt)
    (h : reconcile fsRootId parse fuel st content = some (res, st')) :
    ∀ id, (getDocument st.docs id).isSome → (getDocument st'.docs id).isSome := by
  intro id hid
  rw [reconcile] at h
  cases hp : parse content with
  | none =>
    rw [hp] at h
    injection h with h1
    injection h1 with hres hst
    subst hst
    exact hid
  | some schema =>
    rw [hp] at h
    dsimp only at h
    split at h
    · injection h with h1
      injection h1 with hres hst
      subst hst
      exact hid
    · split at h
      · injection h with h1
        injection h1 with hres hst
        subst hst
        exact hid
      · cases hroot : schema.root with
        | none =>
          rw [hroot] at h
          dsimp only at h
          injection h with h1
          injection h1 with hres hst
          subst hst
          exact createMissing_docs_mono [] st id hid
        | some root =>
          rw [hroot] at h
          dsimp only at h
          cases hc : collectEntries ⟨fsRootId, st.docs, parse⟩ fuel root ""
              ⟨[], [], st.cache, 0⟩ with
          | none =>
            rw [hc] at h
            cases h
          | some out =>
            obtain ⟨r, wst⟩ := out
            rw [hc] at h
            cases r with
            | error e =>
              injection h with h1
              injection h1 with hres hst
              subst hst
              exact hid
            | ok entries =>
              injection h with h1
              injection h1 with hres hst
              subst hst
              exact createMissing_docs_mono entries { st with cache := wst.cache } id hid


/-- Witness for C4: a store created by schema S1 (holding `fs:a.txt`),
reconciled with a schema S2 that omits that document, still holds it. -/
theorem reconciler_nondestructive_witness :
    (getDocument
      [("fs:b.txt", ⟨"\x7b\x7d", .json⟩), ("fs:a.txt", ⟨"\x7b\x7d", .json⟩)]
      "fs:a.txt").isSome = true := by
  have hrec : reconcile "fs"
      (fun s => if s = "S2" then
        some ⟨1, some (.dir none none (some [("b.txt", .doc none none)]))⟩
        else none)
      3 ⟨[("fs:a.txt", ⟨"\x7b\x7d", .json⟩)], ["fs:a.txt"], none, []⟩ "S2" =
      some (.ok (),
        ⟨[("fs:b.txt", ⟨"\x7b\x7d", .json⟩), ("fs:a.txt", ⟨"\x7b\x7d", .json⟩)],
          ["fs:b.txt", "fs:a.txt"],
          some ⟨1, some (.dir none none (some [("b.txt", .doc none none)]))⟩, []⟩) := by
    simp [reconcile, collectEntries, processEntries, collectChildren, validateName,
      createMissing, getOrCreateWithId, getDocument, insertSet, deriveDocId,
      resolveContentType, rootNotDir, ContentType.fromMime, ContentType.defaultContent]
  exact reconciler_nondestructive "fs"
    (fun s => if s = "S2" then
      some ⟨1, some (.dir none none (some [("b.txt", .doc none none)]))⟩
      else none)
    3 ⟨[("fs:a.txt", ⟨"\x7b\x7d", .json⟩)], ["fs:a.txt"], none, []⟩ "S2"
    (.ok ())
    ⟨[("fs:b.txt", ⟨"\x7b\x7d", .json⟩), ("fs:a.txt", ⟨"\x7b\x7d", .json⟩)],
      ["fs:b.txt", "fs:a.txt"],
      some ⟨1, some (.dir none none (some [("b.txt", .doc none none)]))⟩, []⟩
    hrec "fs:a.txt" (by decide)

/-- The number of store ids not yet on the recursion stack: an upper bound
on how many doc-backed descents the walk can still make. -/
def offStack (ctx : ReconcilerCtx) (stack : List String) : Nat :=
  ((ctx.docs.map Prod.fst).dedup.filter (fun x => decide (x ∉ stack))).length

theorem getDocument_mem_ids (store : DocStore) (id : String) (d : Document)
    (h : getDocument store id = some d) : id ∈ store.map Prod.fst := by
  induction store with
  | nil => simp [getDocument] at h
  | cons kv rest ih =>
    obtain ⟨k, v⟩ := kv
    rw [getDocument] at h
    by_cases hk : k = id
    · simp [hk]
    · rw [if_neg hk] at h
      simp [ih h]

theorem filter_length_le {α : Type} (p q : α → Bool)
    (h : ∀ x, p x = true → q x = true) :
    ∀ l : List α, (l.filter p).length ≤ (l.filter q).length := by
  intro l
  induction l with
  | nil => simp
  | cons a rest ih =>
    by_cases hpa : p a = true
    · simp [List.filter, hpa, h a hpa]
      omega
    · have hpa' : p a = false := by
        cases hp2 : p a
        · rfl
        · exact absurd hp2 hpa
      cases hqa : q a <;> simp [List.filter, hpa', hqa] <;> omega

theorem filter_length_lt {α : Type} (p q : α → Bool)
    (h : ∀ x, p x = true → q x = true) (a : α)
    (hpa : p a = false) (hqa : q a = true) :
    ∀ l : List α, a ∈ l → (l.filter p).length < (l.filter q).length := by
  intro l
  induction l with
  | nil => simp
  | cons b rest ih =>
    intro hmem
    rcases List.mem_cons.mp hmem with hb | hb
    · subst hb
      simp only [List.filter, hpa, hqa]
      have := filter_length_le p q h rest
      simp
      omega
    · by_cases hpb : p b = true
      · simp [List.filter, hpb, h b hpb]
        exact ih hb
      · have hpb' : p b = false := by
          cases hp2 : p b
          · rfl
          · exact absurd hp2 hpb
        cases hqb : q b <;> simp [List.filter, hpb', hqb]
        · exact ih hb
        · have := ih hb
          omega

theorem offStack_insert_lt (ctx : ReconcilerCtx) (stack : List String)
    (docId : String) (hid : docId ∈ ctx.docs.map Prod.fst)
    (hstk : docId ∉ stack) :
    offStack ctx (docId :: stack) < offStack ctx stack := by
  have h1 : ∀ x, (fun x => decide (x ∉ docId :: stack)) x = true →
      (fun x => decide (x ∉ stack)) x = true := by
    intro x hx
    simp only [decide_eq_true_eq] at hx ⊢
    intro hxs
    exact hx (List.mem_cons_of_mem _ hxs)
  have h2 : (fun x => decide (x ∉ docId :: stack)) docId = false := by simp
  have h3 : (fun x => decide (x ∉ stack)) docId = true := by simpa using hstk
  exact filter_length_lt _ _ h1 docId h2 h3 _ (List.mem_dedup.mpr hid)

theorem removeSet_insertSet (stack : List String) (x : String)
    (h : x ∉ stack) : removeSet (insertSet stack x) x = stack := by
  rw [insertSet, if_neg h, removeSet]
  simp only [List.filter]
  simp only [ne_eq, decide_not]
  simp
  intro y hy
  intro he
  subst he
  exact h hy

/-- Sufficiency statement for `collectEntries`: with fuel above the measure,
the walk completes and restores the recursion stack. -/
def SEnt (ctx : ReconcilerCtx) (f : Nat) : Prop :=
  ∀ (e : FsEntry) (p : String) (st : WalkSt),
    offStack ctx st.recursionStack < f →
    ∃ out st', collectEntries ctx f e p st = some (out, st') ∧
      st'.recursionStack = st.recursionStack

/-- Sufficiency statement for `collectChildren`. -/
def SCh (ctx : ReconcilerCtx) (f : Nat) : Prop :=
  ∀ (cs : List (String × FsEntry)) (p : String) (st : WalkSt),
    offStack ctx st.recursionStack < f →
    ∃ out st', collectChildren ctx f cs p st = some (out, st') ∧
      st'.recursionStack = st.recursionStack

/-- Sufficiency statement for `processEntries`. -/
def SPr (ctx : ReconcilerCtx) (f : Nat) : Prop :=
  ∀ (eo : Option (List (String × FsEntry))) (p : String) (st : WalkSt)
    (acc : List (String × String × ContentType)),
    offStack ctx st.recursionStack < f →
    ∃ out st', processEntries ctx f eo p st acc = some (out, st') ∧
      st'.recursionStack = st.recursionStack

/-- Sufficiency statement for `collectDocBacked`: fuel is only needed when
the document actually exists in the store. -/
def SDb (ctx : ReconcilerCtx) (f : Nat) : Prop :=
  ∀ (d bp : String) (st : WalkSt),
    ((getDocument ctx.docs d).isSome → offStack ctx st.recursionStack + 1 < f) →
    ∃ out st', collectDocBacked ctx f d bp st = some (out, st') ∧
      st'.recursionStack = st.recursionStack

/-- Sufficiency statement for `docBackedChecks`. -/
def SChk (ctx : ReconcilerCtx) (f : Nat) : Prop :=
  ∀ (d bp : String) (sch : FsSchema) (st : WalkSt),
    offStack ctx st.recursionStack + 1 < f →
    ∃ out st', docBackedChecks ctx f d bp sch st = some (out, st') ∧
      st'.recursionStack = st.recursionStack

/-- Sufficiency statement for `collectFromSchema`. -/
def SFs (ctx : ReconcilerCtx) (f : Nat) : Prop :=
  ∀ (sch : FsSchema) (bp : String) (st : WalkSt),
    offStack ctx st.recursionStack + 1 < f →
    ∃ out st', collectFromSchema ctx f sch bp st = some (out, st') ∧
      st'.recursionStack = st.recursionStack

theorem SFs_proof (ctx : ReconcilerCtx) (f : Nat)
    (hIH : ∀ g, g < f → SEnt ctx g) : SFs ctx f := by
  intro sch bp st h
  cases hr : sch.root with
  | none =>
    refine ⟨some [], st, ?_, rfl⟩
    rw [collectFromSchema, hr]
  | some root =>
    cases f with
    | zero => omega
    | succ f' =>
      obtain ⟨out, st', hc, hstack⟩ := hIH f' (by omega) root bp st (by omega)
      cases out with
      | ok entries =>
        refine ⟨some entries, st', ?_, hstack⟩
        rw [collectFromSchema, hr]
        dsimp only
        rw [hc]
      | error e =>
        refine ⟨none, st', ?_, hstack⟩
        rw [collectFromSchema, hr]
        dsimp only
        rw [hc]

theorem SChk_proof (ctx : ReconcilerCtx) (f : Nat) (hfs : SFs ctx f) :
    SChk ctx f := by
  intro d bp sch st h
  rw [docBackedChecks]
  by_cases hv : sch.version ≠ 1
  · rw [if_pos hv]
    cases hc : lookupMap st.cache d with
    | none => exact ⟨none, st, rfl, rfl⟩
    | some cached => exact hfs cached bp st h
  · rw [if_neg hv]
    by_cases hroot : rootNotDir sch = true
    · rw [if_pos hroot]
      cases hc : lookupMap st.cache d with
      | none => exact ⟨none, st, rfl, rfl⟩
      | some cached => exact hfs cached bp st h
    · rw [if_neg hroot]
      exact hfs sch bp { st with cache := insertMap st.cache d sch } h

theorem SDb_proof (ctx : ReconcilerCtx) (f : Nat) (hchk : SChk ctx f) :
    SDb ctx f := by
  intro d bp st h
  rw [collectDocBacked]
  cases hg : getDocument ctx.docs d with
  | none => exact ⟨none, st, rfl, rfl⟩
  | some doc =>
    have hfuel := h (by rw [hg]; rfl)
    dsimp only
    by_cases he : doc.content = "" ∨ doc.content = "\x7b\x7d"
    · rw [if_pos he]
      exact ⟨none, st, rfl, rfl⟩
    · rw [if_neg he]
      cases hp : ctx.parse doc.content with
      | some schema => exact hchk d bp schema st hfuel
      | none =>
        cases hc : lookupMap st.cache d with
        | none => exact ⟨none, st, rfl, rfl⟩
        | some cached => exact hchk d bp cached st hfuel

theorem collectEntries_dir_both (ctx : ReconcilerCtx) (f : Nat)
    (nid : Option String) (ct : Option String)
    (entries : Option (List (String × FsEntry))) (p : String) (st : WalkSt)
    (h : nid.isSome ∧ entries.isSome) :
    collectEntries ctx f (.dir nid ct entries) p st =
      some (.error (.schemaError ("Directory at " ++
        (if p = "" then "/" else p) ++
        " has both node_id and entries (mutually exclusive)")), st) := by
  rw [collectEntries.eq_def]
  dsimp only
  rw [if_pos h]

theorem collectEntries_dir_inline (ctx : ReconcilerCtx) (f : Nat)
    (ct : Option String) (entries : Option (List (String × FsEntry)))
    (p : String) (st : WalkSt) :
    collectEntries ctx f (.dir none ct entries) p st =
      processEntries ctx f entries p st [] := by
  rw [collectEntries.eq_def]
  dsimp only
  rw [if_neg (by simp)]

theorem collectEntries_dir_cycle (ctx : ReconcilerCtx) (f : Nat)
    (docId : String) (ct : Option String)
    (entries : Option (List (String × FsEntry))) (p : String) (st : WalkSt)
    (hboth : ¬((some docId : Option String).isSome ∧ entries.isSome))
    (hmem : docId ∈ st.recursionStack) :
    collectEntries ctx f (.dir (some docId) ct entries) p st =
      processEntries ctx f entries p
        ⟨insertSet st.docBackedDirs docId, st.recursionStack, st.cache,
          st.cycleWarnings + 1⟩
        [(p, docId, resolveContentType ct)] := by
  rw [collectEntries.eq_def]
  dsimp only
  rw [if_neg hboth]
  try dsimp only
  rw [if_pos hmem]

theorem collectEntries_dir_descend (ctx : ReconcilerCtx) (f : Nat)
    (docId : String) (ct : Option String)
    (entries : Option (List (String × FsEntry))) (p : String) (st : WalkSt)
    (hboth : ¬((some docId : Option String).isSome ∧ entries.isSome))
    (hmem : docId ∉ st.recursionStack) :
    collectEntries ctx f (.dir (some docId) ct entries) p st =
      match collectDocBacked ctx f docId p
          ⟨insertSet st.docBackedDirs docId, insertSet st.recursionStack docId,
            st.cache, st.cycleWarnings⟩ with
      | none => none
      | some (childOpt, st3) =>
        processEntries ctx f entries p
          ⟨st3.docBackedDirs, removeSet st3.recursionStack docId,
            st3.cache, st3.cycleWarnings⟩
          ([(p, docId, resolveContentType ct)] ++ childOpt.getD []) := by
  rw [collectEntries.eq_def]
  dsimp only
  rw [if_neg hboth]
  try dsimp only
  rw [if_neg hmem]

theorem collectChildren_cons_ok (ctx : ReconcilerCtx) (f : Nat)
    (name : String) (child : FsEntry) (rest : List (String × FsEntry))
    (p : String) (st : WalkSt) (u : Unit) (hv : validateName name = .ok u) :
    collectChildren ctx f ((name, child) :: rest) p st =
      match collectEntries ctx f child
          (if p = "" then name else p ++ "/" ++ name) st with
      | none => none
      | some (.error e, st1) => some (.error e, st1)
      | some (.ok rs, st1) =>
        match collectChildren ctx f rest p st1 with
        | none => none
        | some (.error e, st2) => some (.error e, st2)
        | some (.ok rs2, st2) => some (.ok (rs ++ rs2), st2) := by
  rw [collectChildren.eq_def]
  try dsimp only
  rw [hv]

theorem collectChildren_cons_err (ctx : ReconcilerCtx) (f : Nat)
    (name : String) (child : FsEntry) (rest : List (String × FsEntry))
    (p : String) (st : WalkSt) (e : FsError)
    (hv : validateName name = .error e) :
    collectChildren ctx f ((name, child) :: rest) p st =
      some (.error e, st) := by
  rw [collectChildren.eq_def]
  try dsimp only
  rw [hv]

theorem processEntries_some (ctx : ReconcilerCtx) (f : Nat)
    (es : List (String × FsEntry)) (p : String) (st : WalkSt)
    (acc : List (String × String × ContentType)) :
    processEntries ctx f (some es) p st acc =
      match collectChildren ctx f es p st with
      | none => none
      | some (.error e, st1) => some (.error e, st1)
      | some (.ok rs, st1) => some (.ok (acc ++ rs), st1) := by
  rw [processEntries.eq_def]

theorem SEnt_proof (ctx : ReconcilerCtx) (f : Nat) (hdb : SDb ctx f) :
    SEnt ctx f ∧ SCh ctx f ∧ SPr ctx f := by
  suffices H : ∀ n : Nat,
      (∀ (e : FsEntry) (p : String) (st : WalkSt), sizeOf e ≤ n →
        offStack ctx st.recursionStack < f →
        ∃ out st', collectEntries ctx f e p st = some (out, st') ∧
          st'.recursionStack = st.recursionStack) ∧
      (∀ (cs : List (String × FsEntry)) (p : String) (st : WalkSt),
        sizeOf cs ≤ n →
        offStack ctx st.recursionStack < f →
        ∃ out st', collectChildren ctx f cs p st = some (out, st') ∧
          st'.recursionStack = st.recursionStack) ∧
      (∀ (eo : Option (List (String × FsEntry))) (p : String) (st : WalkSt)
        (acc : List (String × String × ContentType)), sizeOf eo ≤ n →
        offStack ctx st.recursionStack < f →
        ∃ out st', processEntries ctx f eo p st acc = some (out, st') ∧
          st'.recursionStack = st.recursionStack) by
    exact ⟨fun e p st h => (H (sizeOf e)).1 e p st le_rfl h,
      fun cs p st h => (H (sizeOf cs)).2.1 cs p st le_rfl h,
      fun eo p st acc h => (H (sizeOf eo)).2.2 eo p st acc le_rfl h⟩
  intro n
  induction n using Nat.strong_induction_on with
  | _ n ih =>
    refine ⟨?_, ?_, ?_⟩
    · intro e p st hsize hfuel
      cases e with
      | doc nid ct =>
        refine ⟨.ok [(p, nid.getD (deriveDocId ctx.fsRootId p),
          resolveContentType ct)], st, ?_, rfl⟩
        rw [collectEntries]
      | dir nid ct entries =>
        have hsz : sizeOf entries < n := by
          have h1 : sizeOf entries < sizeOf (FsEntry.dir nid ct entries) := by
            simp only [FsEntry.dir.sizeOf_spec]
            omega
          omega
        by_cases hboth : nid.isSome ∧ entries.isSome
        · exact ⟨_, st, collectEntries_dir_both ctx f nid ct entries p st hboth, rfl⟩
        · cases nid with
          | none =>
            rw [collectEntries_dir_inline]
            exact (ih (sizeOf entries) hsz).2.2 entries p st [] le_rfl hfuel
          | some docId =>
            by_cases hmem : docId ∈ st.recursionStack
            · rw [collectEntries_dir_cycle ctx f docId ct entries p st hboth hmem]
              exact (ih (sizeOf entries) hsz).2.2 entries p
                ⟨insertSet st.docBackedDirs docId, st.recursionStack,
                  st.cache, st.cycleWarnings + 1⟩
                [(p, docId, resolveContentType ct)] le_rfl hfuel
            · rw [collectEntries_dir_descend ctx f docId ct entries p st hboth hmem]
              have hdbhyp : (getDocument ctx.docs docId).isSome →
                  offStack ctx (insertSet st.recursionStack docId) + 1 < f := by
                intro hsome
                obtain ⟨doc, hdoc⟩ := Option.isSome_iff_exists.mp hsome
                have hid := getDocument_mem_ids ctx.docs docId doc hdoc
                have hlt := offStack_insert_lt ctx st.recursionStack docId hid hmem
                rw [insertSet, if_neg hmem]
                omega
              obtain ⟨outD, st3, hdbEq, hst3⟩ := hdb docId p
                ⟨insertSet st.docBackedDirs docId, insertSet st.recursionStack docId,
                  st.cache, st.cycleWarnings⟩ hdbhyp
              rw [hdbEq]
              have hst4 : removeSet st3.recursionStack docId = st.recursionStack := by
                rw [hst3]
                exact removeSet_insertSet _ _ hmem
              obtain ⟨out, st', hpe, hstk⟩ :=
                (ih (sizeOf entries) hsz).2.2 entries p
                  ⟨st3.docBackedDirs, removeSet st3.recursionStack docId,
                    st3.cache, st3.cycleWarnings⟩
                  ([(p, docId, resolveContentType ct)] ++ outD.getD []) le_rfl
                  (by dsimp only; rw [hst4]; exact hfuel)
              refine ⟨out, st', hpe, ?_⟩
              rw [hstk]
              exact hst4
    · intro cs p st hsize hfuel
      cases cs with
      | nil =>
        refine ⟨.ok [], st, ?_, rfl⟩
        rw [collectChildren]
      | cons nc rest =>
        obtain ⟨name, child⟩ := nc
        have hszc : sizeOf child < n := by
          have h1 : sizeOf child + sizeOf rest <
              sizeOf ((name, child) :: rest) := by
            simp [List.cons.sizeOf_spec, Prod.mk.sizeOf_spec]
            omega
          omega
        have hszr : sizeOf rest < n := by
          have h1 : sizeOf child + sizeOf rest <
              sizeOf ((name, child) :: rest) := by
            simp [List.cons.sizeOf_spec, Prod.mk.sizeOf_spec]
            omega
          omega
        cases hv : validateName name with
        | error e =>
          exact ⟨.error e, st,
            collectChildren_cons_err ctx f name child rest p st e hv, rfl⟩
        | ok u =>
          rw [collectChildren_cons_ok ctx f name child rest p st u hv]
          obtain ⟨out1, st1, hc1, hs1⟩ := (ih (sizeOf child) hszc).1 child
            (if p = "" then name else p ++ "/" ++ name) st le_rfl hfuel
          rw [hc1]
          cases out1 with
          | error e => exact ⟨.error e, st1, rfl, hs1⟩
          | ok rs =>
            dsimp only
            obtain ⟨out2, st2, hc2, hs2⟩ := (ih (sizeOf rest) hszr).2.1 rest p st1
              le_rfl (by rw [hs1]; exact hfuel)
            rw [hc2]
            cases out2 with
            | error e =>
              refine ⟨.error e, st2, rfl, ?_⟩
              rw [hs2]
              exact hs1
            | ok rs2 =>
              refine ⟨.ok (rs ++ rs2), st2, rfl, ?_⟩
              rw [hs2]
              exact hs1
    · intro eo p st acc hsize hfuel
      cases eo with
      | none =>
        refine ⟨.ok acc, st, ?_, rfl⟩
        rw [processEntries]
      | some es =>
        have hsz : sizeOf es < n := by
          have h1 : sizeOf es < sizeOf (some es) := by
            simp [Option.some.sizeOf_spec]
          omega
        rw [processEntries_some]
        obtain ⟨out1, st1, hc1, hs1⟩ := (ih (sizeOf es) hsz).2.1 es p st le_rfl hfuel
        rw [hc1]
        cases out1 with
        | error e => exact ⟨.error e, st1, rfl, hs1⟩
        | ok rs => exact ⟨.ok (acc ++ rs), st1, rfl, hs1⟩

theorem walk_fuel_sufficient (ctx : ReconcilerCtx) (f : Nat) :
    SEnt ctx f ∧ SCh ctx f ∧ SPr ctx f ∧ SDb ctx f ∧ SChk ctx f ∧ SFs ctx f := by
  induction f using Nat.strong_induction_on with
  | _ f ih =>
    have hfs : SFs ctx f := SFs_proof ctx f (fun g hg => (ih g hg).1)
    have hchk : SChk ctx f := SChk_proof ctx f hfs
    have hdb : SDb ctx f := SDb_proof ctx f hchk
    obtain ⟨he, hch, hpr⟩ := SEnt_proof ctx f hdb
    exact ⟨he, hch, hpr, hdb, hchk, hfs⟩

theorem reconcile_ne_none (fsRootId : String) (parse : String → Option FsSchema)
    (fuel : Nat) (st : RecSt) (content : String)
    (hfuel : (st.docs.map Prod.fst).dedup.length < fuel) :
    reconcile fsRootId parse fuel st content ≠ none := by
  rw [reconcile]
  cases hp : parse content with
  | none => simp
  | some schema =>
    dsimp only
    by_cases hv : schema.version ≠ 1
    · simp [hv]
    · rw [if_neg hv]
      by_cases hroot : rootNotDir schema = true
      · simp [hroot]
      · rw [if_neg hroot]
        cases hr : schema.root with
        | none => simp
        | some root =>
          dsimp only
          have hoff : offStack ⟨fsRootId, st.docs, parse⟩ [] < fuel := by
            rw [offStack]
            have hfe : ((st.docs.map Prod.fst).dedup.filter
                (fun x => decide (x ∉ ([] : List String)))) =
                (st.docs.map Prod.fst).dedup := by
              apply List.filter_eq_self.mpr
              intro a _
              simp
            dsimp only
            rw [hfe]
            exact hfuel
          obtain ⟨out, st', hc, hstk⟩ :=
            (walk_fuel_sufficient ⟨fsRootId, st.docs, parse⟩ fuel).1 root ""
              ⟨[], [], st.cache, 0⟩ hoff
          rw [hc]
          cases out <;> simp

/-- C5: Reconciler cycle tolerance.  The walk terminates on every schema:
with fuel above the number of distinct store ids not yet on the recursion
stack, `collect_entries_with_dirs` completes and restores the recursion
stack (each doc id is pushed before descent and popped on return), and
`reconcile` completes on every input.  A document-backed dir whose doc id
is already on the recursion stack is not descended into — one cycle
warning is emitted and only the dir's own triple is produced — while a
doc id not on the stack (multi-mount included) is descended into through
`collectDocBacked` with the id pushed for the descent and removed after. -/
theorem reconciler_cycle_tolerance :
    (∀ (ctx : ReconcilerCtx) (fuel : Nat) (e : FsEntry) (p : String) (st : WalkSt),
      offStack ctx st.recursionStack < fuel →
      ∃ out st', collectEntries ctx fuel e p st = some (out, st') ∧
        st'.recursionStack = st.recursionStack) ∧
    (∀ (fsRootId : String) (parse : String → Option FsSchema) (fuel : Nat)
        (st : RecSt) (content : String),
      (st.docs.map Prod.fst).dedup.length < fuel →
      reconcile fsRootId parse fuel st content ≠ none) ∧
    (∀ (ctx : ReconcilerCtx) (fuel : Nat) (docId : String) (ct : Option String)
        (entries : Option (List (String × FsEntry))) (p : String) (st : WalkSt),
      ¬((some docId : Option String).isSome ∧ entries.isSome) →
      docId ∈ st.recursionStack →
      collectEntries ctx fuel (.dir (some docId) ct entries) p st =
        processEntries ctx fuel entries p
          ⟨insertSet st.docBackedDirs docId, st.recursionStack, st.cache,
            st.cycleWarnings + 1⟩
          [(p, docId, resolveContentType ct)]) ∧
    (∀ (ctx : ReconcilerCtx) (fuel : Nat) (docId : String) (ct : Option String)
        (entries : Option (List (String × FsEntry))) (p : String) (st : WalkSt),
      ¬((some docId : Option String).isSome ∧ entries.isSome) →
      docId ∉ st.recursionStack →
      collectEntries ctx fuel (.dir (some docId) ct entries) p st =
        match collectDocBacked ctx fuel docId p
            ⟨insertSet st.docBackedDirs docId, insertSet st.recursionStack docId,
              st.cache, st.cycleWarnings⟩ with
        | none => none
        | some (childOpt, st3) =>
          processEntries ctx fuel entries p
            ⟨st3.docBackedDirs, removeSet st3.recursionStack docId,
              st3.cache, st3.cycleWarnings⟩
            ([(p, docId, resolveContentType ct)] ++ childOpt.getD [])) :=
  ⟨fun ctx fuel => (walk_fuel_sufficient ctx fuel).1,
    reconcile_ne_none,
    collectEntries_dir_cycle,
    collectEntries_dir_descend⟩

/-- Witness for C5: a store where document X's content is a schema that
mounts X again.  The walk completes with the recursion stack restored,
exactly one cycle warning, and `reconcile` completes; the skip and descend
equations are instantiated at X. -/
theorem reconciler_cycle_tolerance_witness :
    (∃ out st', collectEntries ⟨"fs", [("X", ⟨"cyc", .json⟩)],
        fun s => if s = "cyc" then some ⟨1, some (.dir (some "X") none none)⟩
          else none⟩ 2
        (.dir (some "X") none none) "" ⟨[], [], [], 0⟩ = some (out, st') ∧
      st'.recursionStack = ([] : List String)) ∧
    reconcile "fs"
      (fun s => if s = "cyc" then some ⟨1, some (.dir (some "X") none none)⟩
        else none) 2
      ⟨[("X", ⟨"cyc", .json⟩)], [], none, []⟩ "cyc" ≠ none ∧
    collectEntries ⟨"fs", [("X", ⟨"cyc", .json⟩)],
        fun s => if s = "cyc" then some ⟨1, some (.dir (some "X") none none)⟩
          else none⟩ 1
        (.dir (some "X") none none) "" ⟨[], ["X"], [], 0⟩ =
      processEntries ⟨"fs", [("X", ⟨"cyc", .json⟩)],
        fun s => if s = "cyc" then some ⟨1, some (.dir (some "X") none none)⟩
          else none⟩ 1 none ""
        ⟨insertSet [] "X", ["X"], [], 0 + 1⟩ [("", "X", resolveContentType none)] ∧
    collectEntries ⟨"fs", [("X", ⟨"cyc", .json⟩)],
        fun s => if s = "cyc" then some ⟨1, some (.dir (some "X") none none)⟩
          else none⟩ 2
        (.dir (some "X") none none) "" ⟨[], [], [], 0⟩ =
      match collectDocBacked ⟨"fs", [("X", ⟨"cyc", .json⟩)],
          fun s => if s = "cyc" then some ⟨1, some (.dir (some "X") none none)⟩
            else none⟩ 2 "X" ""
          ⟨insertSet [] "X", insertSet [] "X", [], 0⟩ with
      | none => none
      | some (childOpt, st3) =>
        processEntries ⟨"fs", [("X", ⟨"cyc", .json⟩)],
          fun s => if s = "cyc" then some ⟨1, some (.dir (some "X") none none)⟩
            else none⟩ 2 none ""
          ⟨st3.docBackedDirs, removeSet st3.recursionStack "X",
            st3.cache, st3.cycleWarnings⟩
          ([("", "X", resolveContentType none)] ++ childOpt.getD []) := by
  refine ⟨?_, ?_, ?_, ?_⟩
  · exact reconciler_cycle_tolerance.1 _ 2 _ "" ⟨[], [], [], 0⟩ (by decide)
  · exact reconciler_cycle_tolerance.2.1 _ _ 2 _ "cyc" (by decide)
  · exact reconciler_cycle_tolerance.2.2.1 _ 1 "X" none none "" ⟨[], ["X"], [], 0⟩
      (by decide) (by decide)
  · exact reconciler_cycle_tolerance.2.2.2 _ 2 "X" none none "" ⟨[], [], [], 0⟩
      (by decide) (by decide)

/-! ## POST /docs media types (src/document.rs; handler modelled from the spec) -/

/-- Modelled from the spec: the `POST /docs` handler of the HTTP server
(the `create_router` handler itself is not among the provided sources;
tests/api_tests.rs exercises it).  Per spec §6, it accepts exactly the
Content-Type headers for which `ContentType::from_mime` returns `Some`,
answering 200 with the new document's id, and 415 Unsupported Media Type
otherwise. -/
def postDocsStatus (contentTypeHeader : String) : Nat :=
  match ContentType.fromMime contentTypeHeader with
  | some _ => 200
  | none => 415

/-- C8: Document-creation media types.  `POST /docs` answers 200 exactly
for Content-Type in {application/json, application/xml, text/xml,
text/plain} — precisely the set on which `ContentType::from_mime` returns
`Some` — and 415 for every other Content-Type, e.g. application/pdf. -/
theorem post_docs_media_types :
    (∀ m : String, postDocsStatus m = 200 ↔ (ContentType.fromMime m).isSome) ∧
    (∀ m : String, postDocsStatus m = 200 ↔
      (m = "application/json" ∨ m = "application/xml" ∨ m = "text/xml" ∨
        m = "text/plain")) ∧
    (∀ m : String, postDocsStatus m = 200 ∨ postDocsStatus m = 415) ∧
    postDocsStatus "application/pdf" = 415 := by
  refine ⟨?_, ?_, ?_, by decide⟩
  · intro m
    rw [postDocsStatus, ContentType.fromMime]
    split_ifs <;> simp
  · intro m
    rw [postDocsStatus, ContentType.fromMime]
    split_ifs with h1 h2 h3 h4 <;> simp_all
  · intro m
    rw [postDocsStatus, ContentType.fromMime]
    split_ifs <;> simp

/-! ## Supervisor startup order (src/orchestrator/config.rs) -/

/-- `enum RestartMode`. -/
inductive RestartMode where
  | always
  | onFailure
  | never
  deriving DecidableEq, Repr

/-- `struct RestartPolicy`. -/
structure RestartPolicy where
  policy : RestartMode
  backoffMs : Nat
  maxBackoffMs : Nat
  deriving DecidableEq, Repr

/-- `struct ProcessConfig`. -/
structure ProcessConfig where
  command : String
  args : List String
  restart : RestartPolicy
  dependsOn : List String
  deriving DecidableEq, Repr

/-- `struct OrchestratorConfig`; the `processes` HashMap as an association
list. -/
structure OrchestratorConfig where
  mqttBroker : String
  processes : List (String × ProcessConfig)
  deriving DecidableEq, Repr

/-- `HashMap::get` on the processes map. -/
def lookupProc (ps : List (String × ProcessConfig)) (k : String) :
    Option ProcessConfig :=
  match ps with
  | [] => none
  | (k2, c) :: rest => if k2 = k then some c else lookupProc rest k

/-- The two rejection shapes of `startup_order`.  The source returns
`format!` strings — "Dependency cycle detected involving '<name>'" and
"Unknown dependency '<dep>' for process '<name>'" — modelled as tagged
values carrying the same arguments. -/
inductive StartupError where
  | dependencyCycle (name : String)
  | unknownDep (dep name : String)
  deriving DecidableEq, Repr

mutual

/-- The recursive `visit` of `OrchestratorConfig::startup_order`: skip
already-visited names, reject names on the in-progress (`visiting`) set as
cycles, otherwise mark in progress, visit each dependency (rejecting
unknown ones), then move the name to `visited` and append it to the order.
`fuel` is an embedding artifact; the `visiting` discipline bounds the real
recursion depth (see `supervisor_startup_order`). -/
def visit (ps : List (String × ProcessConfig)) :
    Nat → String → List String → List String → List String →
    Option (Except StartupError (List String × List String × List String))
  | 0, _, _, _, _ => none
  | f + 1, name, visited, visiting, order =>
    if name ∈ visited then some (.ok (visited, visiting, order))
    else if name ∈ visiting then some (.error (.dependencyCycle name))
    else
      match lookupProc ps name with
      | some config =>
        match visitDeps ps f config.dependsOn name visited
            (insertSet visiting name) order with
        | none => none
        | some (.error e) => some (.error e)
        | some (.ok (v2, vi2, o2)) =>
          some (.ok (insertSet v2 name, removeSet vi2 name, o2 ++ [name]))
      | none =>
        some (.ok (insertSet visited name,
          removeSet (insertSet visiting name) name, order ++ [name]))
termination_by f => (f, 0, 0)

/-- The `for dep in &config.depends_on` loop of `visit`: reject dependencies
missing from the map, recurse into known ones, abort on error. -/
def visitDeps (ps : List (String × ProcessConfig)) :
    Nat → List String → String → List String → List String → List String →
    Option (Except StartupError (List String × List String × List String))
  | _, [], _, visited, visiting, order => some (.ok (visited, visiting, order))
  | f, dep :: rest, name, visited, visiting, order =>
    if (lookupProc ps dep).isSome then
      match visit ps f dep visited visiting order with
      | none => none
      | some (.error e) => some (.error e)
      | some (.ok (v2, vi2, o2)) => visitDeps ps f rest name v2 vi2 o2
    else some (.error (.unknownDep dep name))
termination_by f deps => (f, 1, deps.length)

end

/-- The `for name in keys` loop of `startup_order`. -/
def visitAll (ps : List (String × ProcessConfig)) (fuel : Nat) :
    List String → List String → List String → List String →
    Option (Except StartupError (List String × List String × List String))
  | [], visited, visiting, order => some (.ok (visited, visiting, order))
  | k :: rest, visited, visiting, order =>
    match visit ps fuel k visited visiting order with
    | none => none
    | some (.error e) => some (.error e)
    | some (.ok (v, vi, o)) => visitAll ps fuel rest v vi o

/-- `OrchestratorConfig::startup_order`: keys sorted for deterministic
ordering, then the visit loop; returns the accumulated order. -/
def startupOrder (cfg : OrchestratorConfig) (fuel : Nat) :
    Option (Except StartupError (List String)) :=
  match visitAll cfg.processes fuel
      ((cfg.processes.map Prod.fst).insertionSort (· ≤ ·)) [] [] [] with
  | none => none
  | some (.error e) => some (.error e)
  | some (.ok (_, _, order)) => some (.ok order)

/-- An edge of the dependency graph: process `p`'s config names `d` in
`depends_on`. -/
def depEdge (ps : List (String × ProcessConfig)) (p d : String) : Prop :=
  ∃ c, lookupProc ps p = some c ∧ d ∈ c.dependsOn

/-- Transitive dependency. -/
def depends (ps : List (String × ProcessConfig)) : String → String → Prop :=
  Relation.TransGen (depEdge ps)

/-- Every `depends_on` entry of every process names a known process. -/
def allDepsKnown (ps : List (String × ProcessConfig)) : Prop :=
  ∀ p c d, lookupProc ps p = some c → d ∈ c.dependsOn →
    (lookupProc ps d).isSome

/-- The dependency graph has no (directed) cycle. -/
def acyclicDeps (ps : List (String × ProcessConfig)) : Prop :=
  ¬∃ p, depends ps p p

theorem mem_insertSet {s : List String} {x y : String} :
    y ∈ insertSet s x ↔ y = x ∨ y ∈ s := by
  rw [insertSet]
  by_cases h : x ∈ s
  · rw [if_pos h]
    constructor
    · exact Or.inr
    · rintro (rfl | hy)
      · exact h
      · exact hy
  · rw [if_neg h]
    simp [List.mem_cons]

theorem lookupProc_mem {ps : List (String × ProcessConfig)} {k : String}
    {c : ProcessConfig} (h : lookupProc ps k = some c) :
    k ∈ ps.map Prod.fst := by
  induction ps with
  | nil => simp [lookupProc] at h
  | cons kv rest ih =>
    obtain ⟨k2, c2⟩ := kv
    rw [lookupProc] at h
    by_cases hk : k2 = k
    · simp [hk]
    · rw [if_neg hk] at h
      simp [ih h]

theorem mem_lookupProc {ps : List (String × ProcessConfig)} {k : String}
    (h : k ∈ ps.map Prod.fst) : (lookupProc ps k).isSome := by
  induction ps with
  | nil => simp at h
  | cons kv rest ih =>
    obtain ⟨k2, c2⟩ := kv
    rw [lookupProc]
    by_cases hk : k2 = k
    · rw [if_pos hk]
      rfl
    · rw [if_neg hk]
      apply ih
      simp at h
      rcases h with h | h
      · exact absurd h.symm hk
      · obtain ⟨x, hx⟩ := h
        exact List.mem_map.mpr ⟨(k, x), hx, rfl⟩

/-- The number of process names not yet on the `visiting` set: bounds the
DFS depth. -/
def offV (ps : List (String × ProcessConfig)) (visiting : List String) : Nat :=
  ((ps.map Prod.fst).dedup.filter (fun x => decide (x ∉ visiting))).length

theorem offV_insert_lt (ps : List (String × ProcessConfig))
    (visiting : List String) (name : String)
    (hid : name ∈ ps.map Prod.fst) (hstk : name ∉ visiting) :
    offV ps (name :: visiting) < offV ps visiting := by
  have h1 : ∀ x, (fun x => decide (x ∉ name :: visiting)) x = true →
      (fun x => decide (x ∉ visiting)) x = true := by
    intro x hx
    simp only [decide_eq_true_eq] at hx ⊢
    intro hxs
    exact hx (List.mem_cons_of_mem _ hxs)
  have h2 : (fun x => decide (x ∉ name :: visiting)) name = false := by simp
  have h3 : (fun x => decide (x ∉ visiting)) name = true := by simpa using hstk
  exact filter_length_lt _ _ h1 name h2 h3 _ (List.mem_dedup.mpr hid)

/-- Basic postconditions of a successful `visit`: the `visiting` set is
restored, `visited` only grows, the order is extended by appending, the
target name ends up visited, and no name that was in progress on entry is
newly marked visited. -/
theorem visit_basic (ps : List (String × ProcessConfig)) :
    ∀ f : Nat,
      (∀ (name : String) (visited visiting order v' vi' o' : List String),
        visit ps f name visited visiting order = some (.ok (v', vi', o')) →
        vi' = visiting ∧ (∀ x, x ∈ visited → x ∈ v') ∧
        (∃ t, o' = order ++ t) ∧ name ∈ v' ∧
        (∀ x, x ∈ v' → x ∈ visited ∨ x ∉ visiting)) ∧
      (∀ (deps : List String) (name : String)
          (visited visiting order v' vi' o' : List String),
        visitDeps ps f deps name visited visiting order =
          some (.ok (v', vi', o')) →
        vi' = visiting ∧ (∀ x, x ∈ visited → x ∈ v') ∧
        (∃ t, o' = order ++ t) ∧ (∀ d, d ∈ deps → d ∈ v') ∧
        (∀ x, x ∈ v' → x ∈ visited ∨ x ∉ visiting)) := by
  intro f
  induction f using Nat.strong_induction_on with
  | _ f ih =>
    have hVisit : ∀ (name : String) (visited visiting order v' vi' o' : List String),
        visit ps f name visited visiting order = some (.ok (v', vi', o')) →
        vi' = visiting ∧ (∀ x, x ∈ visited → x ∈ v') ∧
        (∃ t, o' = order ++ t) ∧ name ∈ v' ∧
        (∀ x, x ∈ v' → x ∈ visited ∨ x ∉ visiting) := by
      intro name visited visiting order v' vi' o' h
      cases f with
      | zero => simp [visit] at h
      | succ f' =>
        rw [visit] at h
        by_cases hv : name ∈ visited
        · rw [if_pos hv] at h
          injection h with h1
          injection h1 with h2
          injection h2 with hv' h3
          injection h3 with hvi' ho'
          subst hv'
          subst hvi'
          subst ho'
          exact ⟨rfl, fun x hx => hx, ⟨[], by simp⟩, hv, fun x hx => Or.inl hx⟩
        · rw [if_neg hv] at h
          by_cases hvi : name ∈ visiting
          · rw [if_pos hvi] at h
            simp at h
          · rw [if_neg hvi] at h
            cases hl : lookupProc ps name with
            | none =>
              rw [hl] at h
              dsimp only at h
              injection h with h1
              injection h1 with h2
              injection h2 with hv' h3
              injection h3 with hvi' ho'
              subst hv'
              subst hvi'
              subst ho'
              refine ⟨removeSet_insertSet visiting name hvi, ?_, ⟨[name], rfl⟩, ?_, ?_⟩
              · intro x hx
                exact mem_insertSet.mpr (Or.inr hx)
              · exact mem_insertSet.mpr (Or.inl rfl)
              · intro x hx
                rcases mem_insertSet.mp hx with rfl | hx2
                · exact Or.inr hvi
                · exact Or.inl hx2
            | some config =>
              rw [hl] at h
              dsimp only at h
              cases hd : visitDeps ps f' config.dependsOn name visited
                  (insertSet visiting name) order with
              | none =>
                rw [hd] at h
                simp at h
              | some r =>
                rw [hd] at h
                cases r with
                | error e => simp at h
                | ok trip =>
                  obtain ⟨v2, vi2, o2⟩ := trip
                  dsimp only at h
                  injection h with h1
                  injection h1 with h2
                  injection h2 with hv' h3
                  injection h3 with hvi' ho'
                  subst hv'
                  subst hvi'
                  subst ho'
                  obtain ⟨hvi2, hsub, ⟨t, hext⟩, hdeps, hfresh⟩ :=
                    (ih f' (by omega)).2 config.dependsOn name visited
                      (insertSet visiting name) order v2 vi2 o2 hd
                  subst hvi2
                  refine ⟨removeSet_insertSet visiting name hvi, ?_,
                    ⟨t ++ [name], by rw [hext, List.append_assoc]⟩, ?_, ?_⟩
                  · intro x hx
                    exact mem_insertSet.mpr (Or.inr (hsub x hx))
                  · exact mem_insertSet.mpr (Or.inl rfl)
                  · intro x hx
                    rcases mem_insertSet.mp hx with rfl | hx2
                    · exact Or.inr hvi
                    · rcases hfresh x hx2 with hx3 | hx3
                      · exact Or.inl hx3
                      · exact Or.inr (fun hc =>
                          hx3 (mem_insertSet.mpr (Or.inr hc)))
    refine ⟨hVisit, ?_⟩
    intro deps
    induction deps with
    | nil =>
      intro name visited visiting order v' vi' o' h
      rw [visitDeps] at h
      injection h with h1
      injection h1 with h2
      injection h2 with hv' h3
      injection h3 with hvi' ho'
      subst hv'
      subst hvi'
      subst ho'
      exact ⟨rfl, fun x hx => hx, ⟨[], by simp⟩, by simp, fun x hx => Or.inl hx⟩
    | cons dep rest ihd =>
      intro name visited visiting order v' vi' o' h
      rw [visitDeps] at h
      by_cases hk : (lookupProc ps dep).isSome
      · rw [if_pos hk] at h
        cases hvv : visit ps f dep visited visiting order with
        | none =>
          rw [hvv] at h
          simp at h
        | some r =>
          rw [hvv] at h
          cases r with
          | error e => simp at h
          | ok trip =>
            obtain ⟨v2, vi2, o2⟩ := trip
            dsimp only at h
            obtain ⟨hvi2, hsub2, ⟨t2, hext2⟩, hdep2, hfresh2⟩ :=
              hVisit dep visited visiting order v2 vi2 o2 hvv
            rw [hvi2] at h
            obtain ⟨hvi', hsub', ⟨t', hext'⟩, hdeps', hfresh'⟩ :=
              ihd name v2 visiting o2 v' vi' o' h
            refine ⟨hvi', fun x hx => hsub' x (hsub2 x hx),
              ⟨t2 ++ t', by rw [hext', hext2, List.append_assoc]⟩, ?_, ?_⟩
            · intro d hd
              rcases List.mem_cons.mp hd with rfl | hd2
              · exact hsub' d hdep2
              · exact hdeps' d hd2
            · intro x hx
              rcases hfresh' x hx with hx2 | hx2
              · exact hfresh2 x hx2
              · exact Or.inr hx2
      · rw [if_neg hk] at h
        simp at h

/-- The DFS invariant on `(visited, order)`: the order is duplicate-free,
lists exactly the visited names, all visited names are known processes, and
every dependency of a visited process is already visited and placed earlier
in the order. -/
def InvPS (ps : List (String × ProcessConfig))
    (visited order : List String) : Prop :=
  order.Nodup ∧ (∀ x, x ∈ order ↔ x ∈ visited) ∧
  (∀ x, x ∈ visited → (lookupProc ps x).isSome) ∧
  (∀ p c d, p ∈ visited → lookupProc ps p = some c → d ∈ c.dependsOn →
    d ∈ visited ∧ order.indexOf d < order.indexOf p)

/-- A successful `visit` of a known process preserves the DFS invariant
(mutually with the dependency loop). -/
theorem visit_inv (ps : List (String × ProcessConfig)) :
    ∀ f : Nat,
      (∀ (name : String) (visited visiting order v' vi' o' : List String),
        (lookupProc ps name).isSome → InvPS ps visited order →
        visit ps f name visited visiting order = some (.ok (v', vi', o')) →
        InvPS ps v' o') ∧
      (∀ (deps : List String) (name : String)
          (visited visiting order v' vi' o' : List String),
        InvPS ps visited order →
        visitDeps ps f deps name visited visiting order =
          some (.ok (v', vi', o')) →
        InvPS ps v' o') := by
  intro f
  induction f using Nat.strong_induction_on with
  | _ f ih =>
    have hVisit : ∀ (name : String) (visited visiting order v' vi' o' : List String),
        (lookupProc ps name).isSome → InvPS ps visited order →
        visit ps f name visited visiting order = some (.ok (v', vi', o')) →
        InvPS ps v' o' := by
      intro name visited visiting order v' vi' o' hk hinv h
      cases f with
      | zero => simp [visit] at h
      | succ f' =>
        rw [visit] at h
        by_cases hv : name ∈ visited
        · rw [if_pos hv] at h
          injection h with h1
          injection h1 with h2
          injection h2 with hv' h3
          injection h3 with hvi' ho'
          subst hv'
          subst ho'
          exact hinv
        · rw [if_neg hv] at h
          by_cases hvi : name ∈ visiting
          · rw [if_pos hvi] at h
            simp at h
          · rw [if_neg hvi] at h
            cases hl : lookupProc ps name with
            | none =>
              rw [hl] at hk
              simp at hk
            | some config =>
              rw [hl] at h
              dsimp only at h
              cases hd : visitDeps ps f' config.dependsOn name visited
                  (insertSet visiting name) order with
              | none =>
                rw [hd] at h
                simp at h
              | some r =>
                rw [hd] at h
                cases r with
                | error e => simp at h
                | ok trip =>
                  obtain ⟨v2, vi2, o2⟩ := trip
                  dsimp only at h
                  injection h with h1
                  injection h1 with h2
                  injection h2 with hv' h3
                  injection h3 with hvi' ho'
                  subst hv'
                  subst ho'
                  have hinv2 : InvPS ps v2 o2 :=
                    (ih f' (by omega)).2 config.dependsOn name visited
                      (insertSet visiting name) order v2 vi2 o2 hinv hd
                  obtain ⟨hviB, hsubB, ⟨t, hextB⟩, hdepsB, hfreshB⟩ :=
                    (visit_basic ps f').2 config.dependsOn name visited
                      (insertSet visiting name) order v2 vi2 o2 hd
                  have hnm2 : name ∉ v2 := by
                    intro hc
                    rcases hfreshB name hc with hc2 | hc2
                    · exact hv hc2
                    · exact hc2 (mem_insertSet.mpr (Or.inl rfl))
                  obtain ⟨hnd2, hiff2, hkeys2, hclos2⟩ := hinv2
                  have hno2 : name ∉ o2 := fun hc => hnm2 ((hiff2 name).mp hc)
                  refine ⟨?_, ?_, ?_, ?_⟩
                  · simp [List.nodup_append, hnd2, hno2]
                  · intro x
                    rw [List.mem_append, mem_insertSet]
                    simp only [List.mem_singleton]
                    rw [hiff2 x]
                    tauto
                  · intro x hx
                    rcases mem_insertSet.mp hx with rfl | hx2
                    · exact hk
                    · exact hkeys2 x hx2
                  · intro p c d hp hcp hdc
                    rcases mem_insertSet.mp hp with rfl | hp2
                    · have hcc : c = config := by
                        rw [hl] at hcp
                        injection hcp with hcc
                        exact hcc.symm
                      subst hcc
                      have hd2 : d ∈ v2 := hdepsB d hdc
                      have hdo2 : d ∈ o2 := (hiff2 d).mpr hd2
                      constructor
                      · exact mem_insertSet.mpr (Or.inr hd2)
                      · rw [List.indexOf_append_of_mem hdo2,
                          List.indexOf_append_of_not_mem hno2]
                        have := List.indexOf_lt_length.mpr hdo2
                        simp
                        omega
                    · obtain ⟨hd2, hidx⟩ := hclos2 p c d hp2 hcp hdc
                      have hdo2 : d ∈ o2 := (hiff2 d).mpr hd2
                      have hpo2 : p ∈ o2 := (hiff2 p).mpr hp2
                      refine ⟨mem_insertSet.mpr (Or.inr hd2), ?_⟩
                      rw [List.indexOf_append_of_mem hdo2,
                        List.indexOf_append_of_mem hpo2]
                      exact hidx
    refine ⟨hVisit, ?_⟩
    intro deps
    induction deps with
    | nil =>
      intro name visited visiting order v' vi' o' hinv h
      rw [visitDeps] at h
      injection h with h1
      injection h1 with h2
      injection h2 with hv' h3
      injection h3 with hvi' ho'
      subst hv'
      subst ho'
      exact hinv
    | cons dep rest ihd =>
      intro name visited visiting order v' vi' o' hinv h
      rw [visitDeps] at h
      by_cases hk : (lookupProc ps dep).isSome
      · rw [if_pos hk] at h
        cases hvv : visit ps f dep visited visiting order with
        | none =>
          rw [hvv] at h
          simp at h
        | some r =>
          rw [hvv] at h
          cases r with
          | error e => simp at h
          | ok trip =>
            obtain ⟨v2, vi2, o2⟩ := trip
            dsimp only at h
            have hinv2 : InvPS ps v2 o2 :=
              hVisit dep visited visiting order v2 vi2 o2 hk hinv hvv
            exact ihd name v2 vi2 o2 v' vi' o' hinv2 h
      · rw [if_neg hk] at h
        simp at h

/-- With fuel above the number of process names off the `visiting` set,
`visit` never exhausts its fuel. -/
theorem visit_fuel (ps : List (String × ProcessConfig)) :
    ∀ f : Nat,
      (∀ (name : String) (visited visiting order : List String),
        offV ps visiting < f →
        visit ps f name visited visiting order ≠ none) ∧
      (∀ (deps : List String) (name : String)
          (visited visiting order : List String),
        offV ps visiting < f →
        visitDeps ps f deps name visited visiting order ≠ none) := by
  intro f
  induction f using Nat.strong_induction_on with
  | _ f ih =>
    have hVisit : ∀ (name : String) (visited visiting order : List String),
        offV ps visiting < f →
        visit ps f name visited visiting order ≠ none := by
      intro name visited visiting order hfuel
      cases f with
      | zero => omega
      | succ f' =>
        rw [visit]
        by_cases hv : name ∈ visited
        · simp [hv]
        · rw [if_neg hv]
          by_cases hvi : name ∈ visiting
          · simp [hvi]
          · rw [if_neg hvi]
            cases hl : lookupProc ps name with
            | none => simp
            | some config =>
              dsimp only
              have hins : insertSet visiting name = name :: visiting := by
                rw [insertSet, if_neg hvi]
              have hoff : offV ps (insertSet visiting name) < f' := by
                rw [hins]
                have := offV_insert_lt ps visiting name
                  (lookupProc_mem hl) hvi
                omega
              cases hd : visitDeps ps f' config.dependsOn name visited
                  (insertSet visiting name) order with
              | none =>
                exact absurd hd ((ih f' (by omega)).2 config.dependsOn name
                  visited (insertSet visiting name) order hoff)
              | some r =>
                cases r with
                | error e => simp
                | ok trip =>
                  obtain ⟨v2, vi2, o2⟩ := trip
                  simp
    refine ⟨hVisit, ?_⟩
    intro deps
    induction deps with
    | nil =>
      intro name visited visiting order hfuel
      rw [visitDeps]
      simp
    | cons dep rest ihd =>
      intro name visited visiting order hfuel
      rw [visitDeps]
      by_cases hk : (lookupProc ps dep).isSome
      · rw [if_pos hk]
        cases hvv : visit ps f dep visited visiting order with
        | none => exact absurd hvv (hVisit dep visited visiting order hfuel)
        | some r =>
          cases r with
          | error e => simp
          | ok trip =>
            obtain ⟨v2, vi2, o2⟩ := trip
            dsimp only
            obtain ⟨hvi2, _, _, _, _⟩ :=
              (visit_basic ps f).1 dep visited visiting order v2 vi2 o2 hvv
            rw [hvi2]
            exact ihd name v2 visiting o2 hfuel
      · rw [if_neg hk]
        simp

/-- On an acyclic dependency graph, `visit` never reports a cycle: a name
is only found on the `visiting` set when every in-progress name transitively
depends on the current target, which would close a real cycle. -/
theorem visit_nocycle (ps : List (String × ProcessConfig))
    (hacyc : acyclicDeps ps) :
    ∀ f : Nat,
      (∀ (name : String) (visited visiting order : List String) (q : String),
        (∀ x, x ∈ visiting → depends ps x name) →
        visit ps f name visited visiting order ≠
          some (.error (.dependencyCycle q))) ∧
      (∀ (deps : List String) (name : String)
          (visited visiting order : List String) (q : String),
        (∀ d, d ∈ deps → ∀ x, x ∈ visiting → depends ps x d) →
        visitDeps ps f deps name visited visiting order ≠
          some (.error (.dependencyCycle q))) := by
  intro f
  induction f using Nat.strong_induction_on with
  | _ f ih =>
    have hVisit : ∀ (name : String) (visited visiting order : List String)
        (q : String),
        (∀ x, x ∈ visiting → depends ps x name) →
        visit ps f name visited visiting order ≠
          some (.error (.dependencyCycle q)) := by
      intro name visited visiting order q hpre
      cases f with
      | zero => simp [visit]
      | succ f' =>
        rw [visit]
        by_cases hv : name ∈ visited
        · simp [hv]
        · rw [if_neg hv]
          by_cases hvi : name ∈ visiting
          · exact absurd ⟨name, hpre name hvi⟩ hacyc
          · rw [if_neg hvi]
            cases hl : lookupProc ps name with
            | none => simp
            | some config =>
              dsimp only
              have hpre2 : ∀ d, d ∈ config.dependsOn →
                  ∀ x, x ∈ insertSet visiting name → depends ps x d := by
                intro d hd x hx
                rcases mem_insertSet.mp hx with rfl | hx2
                · exact Relation.TransGen.single ⟨config, hl, hd⟩
                · exact Relation.TransGen.trans (hpre x hx2)
                    (Relation.TransGen.single ⟨config, hl, hd⟩)
              cases hd : visitDeps ps f' config.dependsOn name visited
                  (insertSet visiting name) order with
              | none => simp
              | some r =>
                cases r with
                | error e =>
                  intro hc
                  injection hc with h1
                  injection h1 with h2
                  subst h2
                  exact (ih f' (by omega)).2 config.dependsOn name visited
                    (insertSet visiting name) order q hpre2 hd
                | ok trip =>
                  obtain ⟨v2, vi2, o2⟩ := trip
                  simp
    refine ⟨hVisit, ?_⟩
    intro deps
    induction deps with
    | nil =>
      intro name visited visiting order q hpre
      rw [visitDeps]
      simp
    | cons dep rest ihd =>
      intro name visited visiting order q hpre
      rw [visitDeps]
      by_cases hk : (lookupProc ps dep).isSome
      · rw [if_pos hk]
        cases hvv : visit ps f dep visited visiting order with
        | none => simp
        | some r =>
          cases r with
          | error e =>
            intro hc
            injection hc with h1
            injection h1 with h2
            subst h2
            exact hVisit dep visited visiting order q
              (fun x hx => hpre dep (List.mem_cons_self dep rest) x hx) hvv
          | ok trip =>
            obtain ⟨v2, vi2, o2⟩ := trip
            dsimp only
            obtain ⟨hvi2, _, _, _, _⟩ :=
              (visit_basic ps f).1 dep visited visiting order v2 vi2 o2 hvv
            rw [hvi2]
            exact ihd name v2 visiting o2 q
              (fun d hd x hx => hpre d (List.mem_cons_of_mem dep hd) x hx)
      · rw [if_neg hk]
        simp

/-- When every declared dependency is known, `visit` never reports an
unknown dependency. -/
theorem visit_nounknown (ps : List (String × ProcessConfig))
    (hknown : allDepsKnown ps) :
    ∀ f : Nat,
      (∀ (name : String) (visited visiting order : List String)
          (d q : String),
        visit ps f name visited visiting order ≠
          some (.error (.unknownDep d q))) ∧
      (∀ (deps : List String) (name : String)
          (visited visiting order : List String) (d q : String),
        (∀ x, x ∈ deps → (lookupProc ps x).isSome) →
        visitDeps ps f deps name visited visiting order ≠
          some (.error (.unknownDep d q))) := by
  intro f
  induction f using Nat.strong_induction_on with
  | _ f ih =>
    have hVisit : ∀ (name : String) (visited visiting order : List String)
        (d q : String),
        visit ps f name visited visiting order ≠
          some (.error (.unknownDep d q)) := by
      intro name visited visiting order d q
      cases f with
      | zero => simp [visit]
      | succ f' =>
        rw [visit]
        by_cases hv : name ∈ visited
        · simp [hv]
        · rw [if_neg hv]
          by_cases hvi : name ∈ visiting
          · simp [hvi]
          · rw [if_neg hvi]
            cases hl : lookupProc ps name with
            | none => simp
            | some config =>
              dsimp only
              have hdeps : ∀ x, x ∈ config.dependsOn →
                  (lookupProc ps x).isSome :=
                fun x hx => hknown name config x hl hx
              cases hd : visitDeps ps f' config.dependsOn name visited
                  (insertSet visiting name) order with
              | none => simp
              | some r =>
                cases r with
                | error e =>
                  intro hc
                  injection hc with h1
                  injection h1 with h2
                  subst h2
                  exact (ih f' (by omega)).2 config.dependsOn name visited
                    (insertSet visiting name) order d q hdeps hd
                | ok trip =>
                  obtain ⟨v2, vi2, o2⟩ := trip
                  simp
    refine ⟨hVisit, ?_⟩
    intro deps
    induction deps with
    | nil =>
      intro name visited visiting order d q hdeps
      rw [visitDeps]
      simp
    | cons dep rest ihd =>
      intro name visited visiting order d q hdeps
      rw [visitDeps]
      rw [if_pos (hdeps dep (List.mem_cons_self dep rest))]
      cases hvv : visit ps f dep visited visiting order with
      | none => simp
      | some r =>
        cases r with
        | error e =>
          intro hc
          injection hc with h1
          injection h1 with h2
          subst h2
          exact hVisit dep visited visiting order d q hvv
        | ok trip =>
          obtain ⟨v2, vi2, o2⟩ := trip
          dsimp only
          exact ihd name v2 vi2 o2 d q
            (fun x hx => hdeps x (List.mem_cons_of_mem dep hx))

theorem visitAll_post (ps : List (String × ProcessConfig)) (fuel : Nat) :
    ∀ (ks visited visiting order v' vi' o' : List String),
      (∀ k, k ∈ ks → (lookupProc ps k).isSome) →
      InvPS ps visited order →
      visitAll ps fuel ks visited visiting order = some (.ok (v', vi', o')) →
      InvPS ps v' o' ∧ (∀ k, k ∈ ks → k ∈ v') ∧ (∀ x, x ∈ visited → x ∈ v') := by
  intro ks
  induction ks with
  | nil =>
    intro visited visiting order v' vi' o' hk hinv h
    rw [visitAll] at h
    injection h with h1
    injection h1 with h2
    injection h2 with hv' h3
    injection h3 with hvi' ho'
    subst hv'
    subst ho'
    exact ⟨hinv, by simp, fun x hx => hx⟩
  | cons k rest ihk =>
    intro visited visiting order v' vi' o' hk hinv h
    rw [visitAll] at h
    cases hvv : visit ps fuel k visited visiting order with
    | none =>
      rw [hvv] at h
      simp at h
    | some r =>
      rw [hvv] at h
      cases r with
      | error e => simp at h
      | ok trip =>
        obtain ⟨v2, vi2, o2⟩ := trip
        dsimp only at h
        have hinv2 : InvPS ps v2 o2 :=
          (visit_inv ps fuel).1 k visited visiting order v2 vi2 o2
            (hk k (List.mem_cons_self k rest)) hinv hvv
        obtain ⟨_, hsub2, _, hkmem, _⟩ :=
          (visit_basic ps fuel).1 k visited visiting order v2 vi2 o2 hvv
        obtain ⟨hinv', hks', hsub'⟩ := ihk v2 vi2 o2 v' vi' o'
          (fun x hx => hk x (List.mem_cons_of_mem k hx)) hinv2 h
        refine ⟨hinv', ?_, fun x hx => hsub' x (hsub2 x hx)⟩
        intro x hx
        rcases List.mem_cons.mp hx with rfl | hx2
        · exact hsub' x hkmem
        · exact hks' x hx2

theorem visitAll_fuel (ps : List (String × ProcessConfig)) (fuel : Nat) :
    ∀ (ks visited visiting order : List String),
      offV ps visiting < fuel →
      visitAll ps fuel ks visited visiting order ≠ none := by
  intro ks
  induction ks with
  | nil =>
    intro visited visiting order hfuel
    rw [visitAll]
    simp
  | cons k rest ihk =>
    intro visited visiting order hfuel
    rw [visitAll]
    cases hvv : visit ps fuel k visited visiting order with
    | none => exact absurd hvv ((visit_fuel ps fuel).1 k visited visiting order hfuel)
    | some r =>
      cases r with
      | error e => simp
      | ok trip =>
        obtain ⟨v2, vi2, o2⟩ := trip
        dsimp only
        obtain ⟨hvi2, _, _, _, _⟩ :=
          (visit_basic ps fuel).1 k visited visiting order v2 vi2 o2 hvv
        rw [hvi2]
        exact ihk v2 visiting o2 hfuel

theorem visitAll_nocycle (ps : List (String × ProcessConfig))
    (hacyc : acyclicDeps ps) (fuel : Nat) :
    ∀ (ks visited order : List String) (q : String),
      visitAll ps fuel ks visited [] order ≠
        some (.error (.dependencyCycle q)) := by
  intro ks
  induction ks with
  | nil =>
    intro visited order q
    rw [visitAll]
    simp
  | cons k rest ihk =>
    intro visited order q
    rw [visitAll]
    cases hvv : visit ps fuel k visited [] order with
    | none => simp
    | some r =>
      cases r with
      | error e =>
        intro hc
        injection hc with h1
        injection h1 with h2
        subst h2
        exact (visit_nocycle ps hacyc fuel).1 k visited [] order q
          (by simp) hvv
      | ok trip =>
        obtain ⟨v2, vi2, o2⟩ := trip
        dsimp only
        obtain ⟨hvi2, _, _, _, _⟩ :=
          (visit_basic ps fuel).1 k visited [] order v2 vi2 o2 hvv
        rw [hvi2]
        exact ihk v2 o2 q

theorem visitAll_nounknown (ps : List (String × ProcessConfig))
    (hknown : allDepsKnown ps) (fuel : Nat) :
    ∀ (ks visited visiting order : List String) (d q : String),
      visitAll ps fuel ks visited visiting order ≠
        some (.error (.unknownDep d q)) := by
  intro ks
  induction ks with
  | nil =>
    intro visited visiting order d q
    rw [visitAll]
    simp
  | cons k rest ihk =>
    intro visited visiting order d q
    rw [visitAll]
    cases hvv : visit ps fuel k visited visiting order with
    | none => simp
    | some r =>
      cases r with
      | error e =>
        intro hc
        injection hc with h1
        injection h1 with h2
        subst h2
        exact (visit_nounknown ps hknown fuel).1 k visited visiting order d q hvv
      | ok trip =>
        obtain ⟨v2, vi2, o2⟩ := trip
        dsimp only
        exact ihk v2 vi2 o2 d q

theorem InvPS_depends (ps : List (String × ProcessConfig))
    (v o : List String) (hinv : InvPS ps v o) :
    ∀ p d, depends ps p d → p ∈ v → d ∈ v ∧ o.indexOf d < o.indexOf p := by
  intro p d h
  induction h with
  | single he =>
    intro hp
    obtain ⟨c, hl, hdc⟩ := he
    exact hinv.2.2.2 p c _ hp hl hdc
  | tail hpc hce ihc =>
    intro hp
    obtain ⟨hcv, hidx⟩ := ihc hp
    obtain ⟨c2, hl2, hdc2⟩ := hce
    obtain ⟨hdv, hidx2⟩ := hinv.2.2.2 _ c2 _ hcv hl2 hdc2
    exact ⟨hdv, lt_trans hidx2 hidx⟩

theorem depends_has_edge (ps : List (String × ProcessConfig)) (p d : String)
    (h : depends ps p d) : ∃ x, depEdge ps p x := by
  induction h with
  | single he => exact ⟨_, he⟩
  | tail _ _ ihc => exact ihc

theorem offV_nil (ps : List (String × ProcessConfig)) :
    offV ps [] = (ps.map Prod.fst).dedup.length := by
  rw [offV]
  congr 1
  apply List.filter_eq_self.mpr
  intro a _
  simp

theorem lookup_isSome_mem {ps : List (String × ProcessConfig)} {k : String}
    (h : (lookupProc ps k).isSome) : k ∈ ps.map Prod.fst := by
  obtain ⟨c, hc⟩ := Option.isSome_iff_exists.mp h
  exact lookupProc_mem hc

/-- C7: Supervisor startup order.  With every dependency known and an
acyclic `depends_on` graph, `startup_order` returns an order listing
exactly the configured processes, without duplicates, in which every
process appears after everything it transitively depends on.  With a cycle
(all deps known) it fails with a DependencyCycle rejection, and with a
missing dependency (graph acyclic) it fails with an UnknownDep rejection.
The fuel is an embedding artifact; any value above the number of distinct
process names is enough. -/
theorem supervisor_startup_order :
    (∀ (cfg : OrchestratorConfig) (fuel : Nat),
      allDepsKnown cfg.processes → acyclicDeps cfg.processes →
      (cfg.processes.map Prod.fst).dedup.length < fuel →
      ∃ order, startupOrder cfg fuel = some (.ok order) ∧
        order.Nodup ∧
        (∀ x, x ∈ order ↔ x ∈ cfg.processes.map Prod.fst) ∧
        (∀ p d, depends cfg.processes p d → p ∈ order →
          d ∈ order ∧ order.indexOf d < order.indexOf p)) ∧
    (∀ (cfg : OrchestratorConfig) (fuel : Nat),
      acyclicDeps cfg.processes → ¬allDepsKnown cfg.processes →
      (cfg.processes.map Prod.fst).dedup.length < fuel →
      ∃ d q, startupOrder cfg fuel = some (.error (.unknownDep d q))) ∧
    (∀ (cfg : OrchestratorConfig) (fuel : Nat),
      allDepsKnown cfg.processes → ¬acyclicDeps cfg.processes →
      (cfg.processes.map Prod.fst).dedup.length < fuel →
      ∃ q, startupOrder cfg fuel = some (.error (.dependencyCycle q))) := by
  have hkeys : ∀ (ps : List (String × ProcessConfig)) k,
      k ∈ (ps.map Prod.fst).insertionSort (· ≤ ·) →
      (lookupProc ps k).isSome :=
    fun ps k hk => mem_lookupProc ((List.mem_insertionSort _).mp hk)
  have hInv0 : ∀ ps : List (String × ProcessConfig), InvPS ps [] [] := by
    intro ps
    refine ⟨List.nodup_nil, by simp, by simp, ?_⟩
    intro p c d hp
    simp at hp
  refine ⟨?_, ?_, ?_⟩
  · intro cfg fuel hknown hacyc hfuel
    have hfuel' : offV cfg.processes [] < fuel := by
      rw [offV_nil]
      exact hfuel
    cases hva : visitAll cfg.processes fuel
        ((cfg.processes.map Prod.fst).insertionSort (· ≤ ·)) [] [] [] with
    | none => exact absurd hva (visitAll_fuel cfg.processes fuel _ [] [] [] hfuel')
    | some r =>
      cases r with
      | error e =>
        cases e with
        | dependencyCycle q =>
          exact absurd hva (visitAll_nocycle cfg.processes hacyc fuel _ [] [] q)
        | unknownDep d q =>
          exact absurd hva
            (visitAll_nounknown cfg.processes hknown fuel _ [] [] [] d q)
      | ok trip =>
        obtain ⟨v', vi', o'⟩ := trip
        obtain ⟨hinv, hks, _⟩ := visitAll_post cfg.processes fuel _ [] [] []
          v' vi' o' (hkeys cfg.processes) (hInv0 cfg.processes) hva
        refine ⟨o', ?_, hinv.1, ?_, ?_⟩
        · rw [startupOrder, hva]
        · intro x
          rw [hinv.2.1 x]
          constructor
          · intro hx
            exact lookup_isSome_mem (hinv.2.2.1 x hx)
          · intro hx
            exact hks x ((List.mem_insertionSort _).mpr hx)
        · intro p d hdep hp
          have hp' : p ∈ v' := (hinv.2.1 p).mp hp
          obtain ⟨hd', hidx⟩ := InvPS_depends cfg.processes v' o' hinv p d hdep hp'
          exact ⟨(hinv.2.1 d).mpr hd', hidx⟩
  · intro cfg fuel hacyc hnknown hfuel
    have hfuel' : offV cfg.processes [] < fuel := by
      rw [offV_nil]
      exact hfuel
    cases hva : visitAll cfg.processes fuel
        ((cfg.processes.map Prod.fst).insertionSort (· ≤ ·)) [] [] [] with
    | none => exact absurd hva (visitAll_fuel cfg.processes fuel _ [] [] [] hfuel')
    | some r =>
      cases r with
      | error e =>
        cases e with
        | dependencyCycle q =>
          exact absurd hva (visitAll_nocycle cfg.processes hacyc fuel _ [] [] q)
        | unknownDep d q =>
          refine ⟨d, q, ?_⟩
          rw [startupOrder, hva]
      | ok trip =>
        obtain ⟨v', vi', o'⟩ := trip
        obtain ⟨hinv, hks, _⟩ := visitAll_post cfg.processes fuel _ [] [] []
          v' vi' o' (hkeys cfg.processes) (hInv0 cfg.processes) hva
        exfalso
        apply hnknown
        intro p c d hl hd
        have hp : p ∈ v' := hks p
          ((List.mem_insertionSort _).mpr (lookupProc_mem hl))
        obtain ⟨hdv, _⟩ := hinv.2.2.2 p c d hp hl hd
        exact hinv.2.2.1 d hdv
  · intro cfg fuel hknown hnacyc hfuel
    have hfuel' : offV cfg.processes [] < fuel := by
      rw [offV_nil]
      exact hfuel
    cases hva : visitAll cfg.processes fuel
        ((cfg.processes.map Prod.fst).insertionSort (· ≤ ·)) [] [] [] with
    | none => exact absurd hva (visitAll_fuel cfg.processes fuel _ [] [] [] hfuel')
    | some r =>
      cases r with
      | error e =>
        cases e with
        | dependencyCycle q =>
          refine ⟨q, ?_⟩
          rw [startupOrder, hva]
        | unknownDep d q =>
          exact absurd hva
            (visitAll_nounknown cfg.processes hknown fuel _ [] [] [] d q)
      | ok trip =>
        obtain ⟨v', vi', o'⟩ := trip
        obtain ⟨hinv, hks, _⟩ := visitAll_post cfg.processes fuel _ [] [] []
          v' vi' o' (hkeys cfg.processes) (hInv0 cfg.processes) hva
        exfalso
        obtain ⟨p, hp⟩ := not_not.mp hnacyc
        obtain ⟨x, c, hl, _⟩ := depends_has_edge cfg.processes p p hp
        have hpv : p ∈ v' := hks p
          ((List.mem_insertionSort _).mpr (lookupProc_mem hl))
        obtain ⟨_, hidx⟩ := InvPS_depends cfg.processes v' o' hinv p p hp hpv
        exact lt_irrefl _ hidx

/-- A ranking argument: if some measure strictly drops along every
dependency edge, the graph is acyclic. -/
theorem acyclic_of_rank (ps : List (String × ProcessConfig))
    (rank : String → Nat)
    (h : ∀ p d, depEdge ps p d → rank d < rank p) : acyclicDeps ps := by
  rintro ⟨p, hp⟩
  have hlt : ∀ a b, depends ps a b → rank b < rank a := by
    intro a b hab
    induction hab with
    | single he => exact h _ _ he
    | tail _ hce ihc => exact lt_trans (h _ _ hce) ihc
  exact lt_irrefl _ (hlt p p hp)

/-- Witness config: processes a → b → c (the spec's chain example). -/
def wCfgChain : OrchestratorConfig :=
  ⟨"localhost:1883",
    [("a", ⟨"a", [], ⟨.always, 500, 10000⟩, ["b"]⟩),
     ("b", ⟨"b", [], ⟨.always, 500, 10000⟩, ["c"]⟩),
     ("c", ⟨"c", [], ⟨.always, 500, 10000⟩, []⟩)]⟩

/-- Witness config: a ↔ b cycle. -/
def wCfgCycle : OrchestratorConfig :=
  ⟨"localhost:1883",
    [("a", ⟨"a", [], ⟨.always, 500, 10000⟩, ["b"]⟩),
     ("b", ⟨"b", [], ⟨.always, 500, 10000⟩, ["a"]⟩)]⟩

/-- Witness config: a depends on an undeclared process z. -/
def wCfgUnknown : OrchestratorConfig :=
  ⟨"localhost:1883", [("a", ⟨"a", [], ⟨.always, 500, 10000⟩, ["z"]⟩)]⟩

theorem wCfgChain_known : allDepsKnown wCfgChain.processes := by
  intro p c d hl hd
  simp only [wCfgChain, lookupProc] at hl
  split_ifs at hl with h1 h2 h3
  · injection hl with hc
    subst hc
    simp at hd
    subst hd
    decide
  · injection hl with hc
    subst hc
    simp at hd
    subst hd
    decide
  · injection hl with hc
    subst hc
    simp at hd

theorem wCfgChain_acyclic : acyclicDeps wCfgChain.processes := by
  apply acyclic_of_rank wCfgChain.processes
    (fun s => if s = "a" then 2 else if s = "b" then 1 else 0)
  rintro p d ⟨c, hl, hd⟩
  simp only [wCfgChain, lookupProc] at hl
  split_ifs at hl with h1 h2 h3
  · subst h1
    injection hl with hc
    subst hc
    simp at hd
    subst hd
    decide
  · subst h2
    injection hl with hc
    subst hc
    simp at hd
    subst hd
    decide
  · injection hl with hc
    subst hc
    simp at hd

theorem wCfgCycle_known : allDepsKnown wCfgCycle.processes := by
  intro p c d hl hd
  simp only [wCfgCycle, lookupProc] at hl
  split_ifs at hl with h1 h2
  · injection hl with hc
    subst hc
    simp at hd
    subst hd
    decide
  · injection hl with hc
    subst hc
    simp at hd
    subst hd
    decide

theorem wCfgCycle_cyclic : ¬acyclicDeps wCfgCycle.processes := by
  intro hn
  apply hn
  have e1 : depEdge wCfgCycle.processes "a" "b" :=
    ⟨⟨"a", [], ⟨.always, 500, 10000⟩, ["b"]⟩, by decide, by decide⟩
  have e2 : depEdge wCfgCycle.processes "b" "a" :=
    ⟨⟨"b", [], ⟨.always, 500, 10000⟩, ["a"]⟩, by decide, by decide⟩
  exact ⟨"a", Relation.TransGen.tail (Relation.TransGen.single e1) e2⟩

theorem wCfgUnknown_acyclic : acyclicDeps wCfgUnknown.processes := by
  apply acyclic_of_rank wCfgUnknown.processes
    (fun s => if s = "a" then 1 else 0)
  rintro p d ⟨c, hl, hd⟩
  simp only [wCfgUnknown, lookupProc] at hl
  split_ifs at hl with h1
  · subst h1
    injection hl with hc
    subst hc
    simp at hd
    subst hd
    decide

theorem wCfgUnknown_unknown : ¬allDepsKnown wCfgUnknown.processes := by
  intro hk
  have h := hk "a" ⟨"a", [], ⟨.always, 500, 10000⟩, ["z"]⟩ "z" (by decide) (by decide)
  exact absurd h (by decide)

/-- Witness for C7: the chain {a→b, b→c, c} succeeds (and evaluates to
[c, b, a]), the two-cycle fails with DependencyCycle, the missing
dependency fails with UnknownDep. -/
theorem supervisor_startup_order_witness :
    (∃ order, startupOrder wCfgChain 4 = some (.ok order) ∧
      order.Nodup ∧
      (∀ x, x ∈ order ↔ x ∈ wCfgChain.processes.map Prod.fst) ∧
      (∀ p d, depends wCfgChain.processes p d → p ∈ order →
        d ∈ order ∧ order.indexOf d < order.indexOf p)) ∧
    startupOrder wCfgChain 4 = some (.ok ["c", "b", "a"]) ∧
    (∃ q, startupOrder wCfgCycle 3 = some (.error (.dependencyCycle q))) ∧
    (∃ d q, startupOrder wCfgUnknown 2 = some (.error (.unknownDep d q))) := by
  refine ⟨supervisor_startup_order.1 wCfgChain 4 wCfgChain_known
      wCfgChain_acyclic (by decide), ?_,
    supervisor_startup_order.2.2 wCfgCycle 3 wCfgCycle_known
      wCfgCycle_cyclic (by decide),
    supervisor_startup_order.2.1 wCfgUnknown 2 wCfgUnknown_acyclic
      wCfgUnknown_unknown (by decide)⟩
  simp [startupOrder, wCfgChain, visitAll, visit, visitDeps, lookupProc,
    insertSet, removeSet, List.insertionSort, List.orderedInsert]
